import Mathlib

/-!
Verification development for the tulna-rs RDF graph-isomorphism engine
(`src/isomorphism/graph_isomorphism.rs`, with the input data model from
`src/isomorphism/core.rs` and the error type from `src/error.rs`).

The Rust code is shallowly embedded:
* `String` payloads stay Lean `String`s; the byte-level operations Rust uses
  (lexicographic `Ord`, `starts_with`, `split('|')`) are re-implemented on
  `String.data` so that every definition reduces in the kernel.  Rust's
  `Ord` on `String` is byte-wise lexicographic on UTF-8, which coincides
  with code-point lexicographic order, which is what `lexLe` implements.
* `HashMap<String, _>` is modeled as an association list with distinct keys
  (`lookupKV` / `insertKV` / `containsKV`); `insertKV` overwrites in place,
  so list length agrees with `HashMap::len`.  The only `HashMap`/`HashSet`
  iteration whose order feeds data into the algorithm is `uniq_graph`
  (iterating `index.keys()`); it is modeled with a canonical `dedup` order
  and the determinism theorem (C3) proves the decision invariant under any
  permutation of those lists.  The remaining iterations are order-insensitive:
  `for key in index_a.keys()` and `for hash_value in hashes_a.values()` are
  universally quantified checks, the `hash_to_term` promotion pass inserts
  pairs with pairwise-distinct keys (so the resulting map does not depend on
  insertion order), and the collected bijection keys/values are sorted before
  being compared.
* `u64`/`u128` arithmetic is `Nat` with explicit reduction `% 2^64`.
* The unbounded recursions (the `while hash_needed` loop of `hash_terms` and
  the speculative recursion of `get_bijection_inner`) take explicit fuel.
  One loop iteration of `hash_terms` that continues strictly grows `hashes`,
  whose keys all come from `terms`, so `terms.length + 1` iterations always
  reach the exit condition; likewise each speculation frame inserts a key not
  yet in the grounded map, a key drawn from the blank-node list, so the
  recursion depth is bounded by `blank_nodes_a.length + 1`.
* `murmur3::murmur3_x64_128` over a `Cursor` never reports a read failure,
  which is modeled by `murmurResult` returning `Except.ok` always; the
  `unwrap_or(0)` in `hash_string` is the explicit `unwrapOr0`.
-/

namespace Tulna

/-! ## Byte-level string primitives (models of Rust `str`/`String` operations) -/

/-- Model of `str::starts_with` at the character-list level. -/
def listPrefixB : List Char → List Char → Bool
  | [], _ => true
  | _ :: _, [] => false
  | a :: l, b :: m => a == b && listPrefixB l m

/-- `s.starts_with(pre)` for Rust strings. -/
def strStarts (s pre : String) : Bool := listPrefixB pre.data s.data

/-- Lexicographic `≤` on character lists by code point; models Rust's
byte-wise `Ord` on `String` (UTF-8 byte order equals code-point order). -/
def lexLe : List Char → List Char → Bool
  | [], _ => true
  | _ :: _, [] => false
  | a :: l, b :: m =>
    if a.toNat < b.toNat then true
    else if b.toNat < a.toNat then false
    else lexLe l m

/-- Rust `String` comparison `s <= t`. -/
def strLe (s t : String) : Bool := lexLe s.data t.data

/-- Insertion step of the sort modeling `Vec::sort` on `Vec<String>`. -/
def insertSorted (a : String) : List String → List String
  | [] => [a]
  | b :: l => if strLe a b then a :: b :: l else b :: insertSorted a l

/-- Model of `Vec::<String>::sort()` (ascending byte-lexicographic order). -/
def sortStr (l : List String) : List String := l.foldr insertSorted []

/-- Model of `str::split('|')` at the character-list level. -/
def splitBarChars : List Char → List (List Char)
  | [] => [[]]
  | c :: cs =>
    if c == '|' then [] :: splitBarChars cs
    else
      match splitBarChars cs with
      | [] => [[c]]
      | h :: t => (c :: h) :: t

/-- `key.split('|').collect::<Vec<_>>()`. -/
def splitBar (s : String) : List String := (splitBarChars s.data).map String.mk

/-- Membership test on a string list (`Vec::contains` / `HashSet::contains`). -/
def elemStr : List String → String → Bool
  | [], _ => false
  | a :: l, s => a == s || elemStr l s

/-- True when the character `|` does not occur in the string. -/
def strBarFree (s : String) : Bool := s.data.all (fun c => !(c == '|'))

/-! ## Association-list model of `HashMap<String, β>` -/

/-- `HashMap::get`. -/
def lookupKV {β : Type} : List (String × β) → String → Option β
  | [], _ => none
  | p :: m, k => if p.1 = k then some p.2 else lookupKV m k

/-- `HashMap::contains_key`. -/
def containsKV {β : Type} (m : List (String × β)) (k : String) : Bool :=
  (lookupKV m k).isSome

/-- `HashMap::insert`: overwrite in place when the key is present, append
otherwise (so the list length tracks `HashMap::len`). -/
def insertKV {β : Type} : List (String × β) → String → β → List (String × β)
  | [], k, v => [(k, v)]
  | p :: m, k, v => if p.1 = k then (k, v) :: m else p :: insertKV m k v

/-- Abbreviation for the grounded / ungrounded hash maps (`HashMap<String, u64>`). -/
abbrev HMap := List (String × Nat)

/-! ## MurmurHash3 x64 128 (the `murmur3` crate, seed 0), over `Nat` mod `2^64` -/

/-- `2^64`, the modulus of all `u64` arithmetic. -/
def U64 : Nat := 18446744073709551616

/-- `u64::rotate_left`. -/
def rotl64 (x r : Nat) : Nat := ((x <<< r) % U64) ||| (x >>> (64 - r))

/-- `u64` wrapping multiplication. -/
def mul64 (a b : Nat) : Nat := (a * b) % U64

/-- `u64` wrapping addition. -/
def add64 (a b : Nat) : Nat := (a + b) % U64

/-- The murmur3 64-bit finalization mix. -/
def fmix64 (k : Nat) : Nat :=
  let k1 := k ^^^ (k >>> 33)
  let k2 := mul64 k1 0xff51afd7ed558ccd
  let k3 := k2 ^^^ (k2 >>> 33)
  let k4 := mul64 k3 0xc4ceb9fe1a85ec53
  k4 ^^^ (k4 >>> 33)

/-- `u64::from_le_bytes` on up to 8 bytes (missing bytes are zero). -/
def leVal : List Nat → Nat
  | [] => 0
  | b :: bs => b + 256 * leVal bs

/-- The murmur3 k1 mixing: `k1 * C1`, rotate 31, `* C2`. -/
def mixK1 (k : Nat) : Nat :=
  mul64 (rotl64 (mul64 k 0x87c37b91114253d5) 31) 0x4cf5ad432745937f

/-- The murmur3 k2 mixing: `k2 * C2`, rotate 33, `* C1`. -/
def mixK2 (k : Nat) : Nat :=
  mul64 (rotl64 (mul64 k 0x4cf5ad432745937f) 33) 0x87c37b91114253d5

/-- Murmur3 finalization: fold the total length in and mix both halves. -/
def murmurFinish (h1 h2 len : Nat) : Nat × Nat :=
  let h1 := h1 ^^^ len
  let h2 := h2 ^^^ len
  let h1 := add64 h1 h2
  let h2 := add64 h2 h1
  let h1 := fmix64 h1
  let h2 := fmix64 h2
  let h1 := add64 h1 h2
  let h2 := add64 h2 h1
  (h1, h2)

/-- Block loop of murmur3 x64 128: full 16-byte blocks, then the tail.
When fewer than 16 bytes remain, the reference mixes the (zero-padded)
tail words into `h1`/`h2` without the block rotation lines; mixing a zero
word is a no-op, matching the empty-tail case. -/
def murmurBlocks : List Nat → Nat → Nat → Nat → Nat × Nat
  | b0 :: b1 :: b2 :: b3 :: b4 :: b5 :: b6 :: b7 ::
    b8 :: b9 :: b10 :: b11 :: b12 :: b13 :: b14 :: b15 :: rest, h1, h2, len =>
      let k1 := leVal [b0, b1, b2, b3, b4, b5, b6, b7]
      let k2 := leVal [b8, b9, b10, b11, b12, b13, b14, b15]
      let h1 := h1 ^^^ mixK1 k1
      let h1 := add64 (mul64 (add64 (rotl64 h1 27) h2) 5) 0x52dce729
      let h2 := h2 ^^^ mixK2 k2
      let h2 := add64 (mul64 (add64 (rotl64 h2 31) h1) 5) 0x38495ab5
      murmurBlocks rest h1 h2 (len + 16)
  | tail, h1, h2, len =>
      let k1 := leVal (tail.take 8)
      let k2 := leVal (tail.drop 8)
      let h1 := h1 ^^^ mixK1 k1
      let h2 := h2 ^^^ mixK2 k2
      murmurFinish h1 h2 (len + tail.length)

/-- UTF-8 encoding of one character (models `String::as_bytes`). -/
def charUtf8 (c : Char) : List Nat :=
  let n := c.toNat
  if n < 128 then [n]
  else if n < 2048 then [192 + n / 64, 128 + n % 64]
  else if n < 65536 then [224 + n / 4096, 128 + (n / 64) % 64, 128 + n % 64]
  else [240 + n / 262144, 128 + (n / 4096) % 64, 128 + (n / 64) % 64, 128 + n % 64]

/-- The UTF-8 byte stream of a string (`data.as_bytes()`). -/
def strBytes (s : String) : List Nat := (s.data.map charUtf8).flatten

/-- `murmur3::murmur3_x64_128`: the 128-bit result is `(h2 << 64) | h1`. -/
def murmur3x64 (bytes : List Nat) (seed : Nat) : Nat :=
  let hs := murmurBlocks bytes seed seed 0
  (hs.2 % U64) * U64 + hs.1

/-- Model of the `io::Error` a `Read` source could report to the hasher. -/
inductive ReadFailure
  | readFailed : ReadFailure
deriving DecidableEq

/-- The crate call `murmur3_x64_128(&mut cursor, 0)`: reading from a
`Cursor` over an in-memory slice never fails, so the result is always `Ok`. -/
def murmurResult (bytes : List Nat) (seed : Nat) : Except ReadFailure Nat :=
  Except.ok (murmur3x64 bytes seed)

/-- The `.unwrap_or(0)` applied to the hasher's result in `hash_string`. -/
def unwrapOr0 : Except ReadFailure Nat → Nat
  | Except.ok h => h
  | Except.error _ => 0

/-- `GraphIsomorphism::hash_string`: murmur3 x64 128 with seed 0, low 64 bits. -/
def hashString (data : String) : Nat :=
  (unwrapOr0 (murmurResult (strBytes data) 0)) % U64

/-! ## Input data model (`core.rs`) and error type (`error.rs`) -/

/-- `TripleNode` from `core.rs`. -/
inductive TripleNode
  | IRI : String → TripleNode
  | Variable : String → TripleNode
  | Literal : String → TripleNode
  | BlankNode : String → TripleNode
deriving DecidableEq

/-- `Triple` from `core.rs`. -/
structure Triple where
  subject : TripleNode
  predicate : TripleNode
  object : TripleNode
deriving DecidableEq

/-- `TulnaError` from `error.rs` (wrapped foreign errors keep their message). -/
inductive TulnaError
  | ParseError : String → TulnaError
  | UnsupportedFeature : String → TulnaError
  | IoError : String → TulnaError
  | RegexError : String → TulnaError
  | InvalidInput : String → TulnaError
  | Unknown : String → TulnaError
deriving DecidableEq

instance : DecidableEq (Except TulnaError Bool) := fun a b =>
  match a, b with
  | Except.ok x, Except.ok y =>
    if h : x = y then isTrue (by rw [h]) else isFalse (by intro hh; cases hh; exact h rfl)
  | Except.error x, Except.error y =>
    if h : x = y then isTrue (by rw [h]) else isFalse (by intro hh; cases hh; exact h rfl)
  | Except.ok _, Except.error _ => isFalse (by intro h; cases h)
  | Except.error _, Except.ok _ => isFalse (by intro h; cases h)

/-- `NormalizedTriple`: string-encoded subject/predicate/object. -/
structure NormalizedTriple where
  subject : String
  predicate : String
  object : String
deriving DecidableEq

/-! ## Normalization (`normalize_bgp` / `normalize_node`) -/

/-- `normalize_node`: IRIs render as `<iri>`, literals as `"lit"`, blank
nodes as `_:id`, and each distinct variable becomes `_:b<counter>` in
first-occurrence order.  The variable map and counter are threaded. -/
def normalizeNode : TripleNode → List (String × String) → Nat →
    String × List (String × String) × Nat
  | TripleNode.IRI iri, m, c => ("<" ++ iri ++ ">", m, c)
  | TripleNode.Variable v, m, c =>
    match lookupKV m v with
    | some s => (s, m, c)
    | none =>
      let fresh := "_:b" ++ toString c
      (fresh, insertKV m v fresh, c + 1)
  | TripleNode.Literal lit, m, c => ("\"" ++ lit ++ "\"", m, c)
  | TripleNode.BlankNode id, m, c => ("_:" ++ id, m, c)

/-- The linear scan of `normalize_bgp`: subject, predicate, object, next triple. -/
def normalizeBgpAux : List Triple → List (String × String) → Nat → List NormalizedTriple
  | [], _, _ => []
  | t :: ts, m, c =>
    let s := normalizeNode t.subject m c
    let p := normalizeNode t.predicate s.2.1 s.2.2
    let o := normalizeNode t.object p.2.1 p.2.2
    ⟨s.1, p.1, o.1⟩ :: normalizeBgpAux ts o.2.1 o.2.2

/-- `normalize_bgp`. -/
def normalizeBgp (bgp : List Triple) : List NormalizedTriple := normalizeBgpAux bgp [] 0

/-! ## Graph helpers -/

/-- The canonical `"s|p|o"` key of a triple (`index_graph` / `verify_bijection`). -/
def quadKey (q : NormalizedTriple) : String :=
  q.subject ++ "|" ++ q.predicate ++ "|" ++ q.object

/-- Whether some position of the triple is an unlabeled (`_:`-prefixed) term. -/
def hasBlank (q : NormalizedTriple) : Bool :=
  strStarts q.subject "_:" || strStarts q.predicate "_:" || strStarts q.object "_:"

/-- `get_quads_with_blank_nodes`. -/
def getQuadsWithBlankNodes (g : List NormalizedTriple) : List NormalizedTriple :=
  g.filter hasBlank

/-- `get_quads_without_blank_nodes`. -/
def getQuadsWithoutBlankNodes (g : List NormalizedTriple) : List NormalizedTriple :=
  g.filter (fun q => !hasBlank q)

/-- The key set of `index_graph`: one entry per distinct `"s|p|o"` key.
Length models `HashMap::len`, membership models `contains_key`. -/
def indexKeys (g : List NormalizedTriple) : List String := (g.map quadKey).dedup

/-- The key-splitting reconstruction inside `uniq_graph`
(`key.split('|')`, then `parts[0]`, `parts[1]`, `parts[2]`).  A key always
contains at least two separators, so the catch-all branch is unreachable. -/
def keyToQuad (key : String) : NormalizedTriple :=
  match splitBar key with
  | s :: p :: o :: _ => ⟨s, p, o⟩
  | _ => ⟨"", "", ""⟩

/-- `uniq_graph`: deduplicate through the key index and re-split the keys. -/
def uniqGraph (g : List NormalizedTriple) : List NormalizedTriple :=
  (indexKeys g).map keyToQuad

/-- All `_:`-prefixed positions occurring in the graph (with repetitions). -/
def collectBlanks (g : List NormalizedTriple) : List String :=
  (g.map (fun q => [q.subject, q.predicate, q.object])).flatten.filter
    (fun t => strStarts t "_:")

/-- `get_graph_blank_nodes`: the distinct blank identifiers, sorted. -/
def getGraphBlankNodes (g : List NormalizedTriple) : List String :=
  sortStr (collectBlanks g).dedup

/-! ## Signature hashing (`term_to_signature` … `hash_terms`) -/

/-- `term_to_signature`. -/
def termToSignature (term : String) (hashes : HMap) (target : String) : String :=
  if term = target then "@self"
  else if strStarts term "_:" then
    match lookupKV hashes term with
    | some h => toString h
    | none => "@blank"
  else term

/-- `quad_to_signature`. -/
def quadToSignature (q : NormalizedTriple) (hashes : HMap) (term : String) : String :=
  termToSignature q.subject hashes term ++ "|" ++
  termToSignature q.predicate hashes term ++ "|" ++
  termToSignature q.object hashes term

/-- `is_term_grounded`. -/
def isTermGrounded (term : String) (hashes : HMap) : Bool :=
  !strStarts term "_:" || containsKV hashes term

/-- Whether `term` occurs in some position of the triple. -/
def occursIn (term : String) (q : NormalizedTriple) : Bool :=
  q.subject == term || q.predicate == term || q.object == term

/-- `hash_term`: signatures of all incident triples, sorted and concatenated,
then hashed; the flag records whether every other unlabeled term in those
triples is already grounded. -/
def hashTerm (term : String) (quads : List NormalizedTriple) (hashes : HMap) :
    Bool × Nat :=
  let relevant := quads.filter (occursIn term)
  let sigs := relevant.map (fun q => quadToSignature q hashes term)
  let grounded := relevant.all (fun q =>
    [q.subject, q.predicate, q.object].all
      (fun x => isTermGrounded x hashes || x == term))
  (grounded, hashString (String.join (sortStr sigs)))

/-- The body of the `for term in terms` loop inside `hash_terms`: a term not
yet grounded is re-hashed; if its flag says grounded it enters `hashes`, and
it always enters `ungrounded_hashes`. -/
def hashTermsStep (quads : List NormalizedTriple) (st : HMap × HMap)
    (term : String) : HMap × HMap :=
  if containsKV st.1 term then st
  else
    let gh := hashTerm term quads st.1
    (if gh.1 then insertKV st.1 term gh.2 else st.1, insertKV st.2 term gh.2)

/-- One scan of the `for term in terms` loop inside `hash_terms`; later
terms in the scan see the updates made for earlier ones. -/
def hashTermsPass (quads : List NormalizedTriple) (terms : List String)
    (st : HMap × HMap) : HMap × HMap :=
  terms.foldl (hashTermsStep quads) st

/-- The entries of `ungrounded_hashes` whose hash value has exactly one
owner; these are what the `hash_to_term` pass of `hash_terms` promotes. -/
def uniqueHashOwners (u : HMap) : HMap :=
  u.filter (fun p => u.countP (fun q => q.2 == p.2) == 1)

/-- The promotion-by-uniqueness step.  The Rust code iterates `hash_to_term`
in `HashMap` order; as the promoted entries have pairwise-distinct keys the
resulting map does not depend on that order, and the `u` list order is used. -/
def promoteUnique (hashes u : HMap) : HMap :=
  (uniqueHashOwners u).foldl (fun h p => insertKV h p.1 p.2) hashes

/-- The `while hash_needed` loop of `hash_terms`; the loop exits when the
grounded count stops growing, hence `terms.length + 1` iterations suffice. -/
def hashTermsLoop : Nat → List NormalizedTriple → List String → HMap × HMap →
    HMap × HMap
  | 0, _, _, st => st
  | fuel + 1, quads, terms, st =>
    let st1 := hashTermsPass quads terms st
    let h2 := promoteUnique st1.1 st1.2
    if h2.length = st.1.length then (h2, st1.2)
    else hashTermsLoop fuel quads terms (h2, st1.2)

/-- `hash_terms`. -/
def hashTerms (quads : List NormalizedTriple) (terms : List String)
    (groundedHashes : HMap) : HMap × HMap :=
  hashTermsLoop (terms.length + 1) quads terms (groundedHashes, [])

/-- `hash_contains_value`. -/
def hashContainsValue (m : HMap) (v : Nat) : Bool := m.any (fun p => p.2 == v)

/-! ## Bijection construction and verification -/

/-- One step of the grounded-matching loop of `get_bijection_inner`:
state is `(bijection, used_b_nodes)`. -/
def buildBijectionStep (blankNodesB : List String) (hashesB : HMap)
    (hashA : Nat) (st : List (String × String) × List String) (nodeA : String) :
    List (String × String) × List String :=
  match blankNodesB.find? (fun nodeB =>
      !elemStr st.2 nodeB && decide (lookupKV hashesB nodeB = some hashA)) with
  | none => st
  | some nodeB => (st.1 ++ [(nodeA, nodeB)], st.2 ++ [nodeB])

/-- The grounded-matching loop: every grounded node of A is paired with the
first still-unused grounded node of B carrying the same hash. -/
def buildBijection (blankNodesA blankNodesB : List String)
    (hashesA hashesB : HMap) : List (String × String) × List String :=
  blankNodesA.foldl (fun st nodeA =>
    match lookupKV hashesA nodeA with
    | none => st
    | some hashA => buildBijectionStep blankNodesB hashesB hashA st nodeA) ([], [])

/-- Rewrite one triple through the bijection (`bijection.get(x).unwrap_or(x)`
at each position). -/
def applyBijection (bij : List (String × String)) (q : NormalizedTriple) :
    NormalizedTriple :=
  ⟨(lookupKV bij q.subject).getD q.subject,
   (lookupKV bij q.predicate).getD q.predicate,
   (lookupKV bij q.object).getD q.object⟩

/-- `verify_bijection`: equal sizes and every rewritten A-triple's key is
present in B's index. -/
def verifyBijection (graphA graphB : List NormalizedTriple)
    (bij : List (String × String)) : Bool :=
  graphA.length == graphB.length &&
  graphA.all (fun q => elemStr (indexKeys graphB) (quadKey (applyBijection bij q)))

/-! ## The recursive core (`get_bijection_inner`) and the orchestrator -/

/-- `get_bijection_inner`.  Fuel bounds the speculation depth; every
recursive call inserts a key not yet in the grounded map, so the caller's
`blank_nodes_a.length + 1` is always enough. -/
def getBijectionInner : Nat → List NormalizedTriple → List NormalizedTriple →
    List String → List String → HMap → HMap → Option (List (String × String))
  | 0, _, _, _, _, _, _ => none
  | fuel + 1, blankQuadsA, blankQuadsB, blankNodesA, blankNodesB, groundedA, groundedB =>
    let huA := hashTerms blankQuadsA blankNodesA groundedA
    let huB := hashTerms blankQuadsB blankNodesB groundedB
    if huA.1.length ≠ huB.1.length then none
    else if !(huA.1.all (fun p => hashContainsValue huB.1 p.2)) then none
    else
      let bu := buildBijection blankNodesA blankNodesB huA.1 huB.1
      if sortStr (bu.1.map Prod.fst) ≠ sortStr blankNodesA ∨
         sortStr (bu.1.map Prod.snd) ≠ sortStr blankNodesB then
        blankNodesA.findSome? (fun nodeA =>
          if containsKV huA.1 nodeA then none
          else blankNodesB.findSome? (fun nodeB =>
            if containsKV huB.1 nodeB then none
            else
              match lookupKV huA.2 nodeA, lookupKV huB.2 nodeB with
              | some ha, some hb =>
                if ha = hb then
                  getBijectionInner fuel blankQuadsA blankQuadsB blankNodesA blankNodesB
                    (insertKV groundedA nodeA (hashString nodeA))
                    (insertKV groundedB nodeB (hashString nodeA))
                else none
              | _, _ => none))
      else if verifyBijection blankQuadsA blankQuadsB bu.1 then some bu.1 else none

/-- `get_bijection` with the two deduplicated blank-bearing triple lists
passed explicitly (they are the lists Rust obtains by iterating a `HashMap`
in unspecified order; the determinism theorem quantifies over them). -/
def getBijectionWithQuadLists (graphA graphB : List NormalizedTriple)
    (blankQuadsA blankQuadsB : List NormalizedTriple) :
    Option (List (String × String)) :=
  let indexA := indexKeys (getQuadsWithoutBlankNodes graphA)
  let indexB := indexKeys (getQuadsWithoutBlankNodes graphB)
  if indexA.length ≠ indexB.length then none
  else if !(indexA.all (fun key => elemStr indexB key)) then none
  else
    let blankNodesA := getGraphBlankNodes graphA
    let blankNodesB := getGraphBlankNodes graphB
    if blankNodesA.length ≠ blankNodesB.length then none
    else
      getBijectionInner (blankNodesA.length + 1) blankQuadsA blankQuadsB
        blankNodesA blankNodesB [] []

/-- `get_bijection`. -/
def getBijection (graphA graphB : List NormalizedTriple) :
    Option (List (String × String)) :=
  getBijectionWithQuadLists graphA graphB
    (uniqGraph (getQuadsWithBlankNodes graphA))
    (uniqGraph (getQuadsWithBlankNodes graphB))

/-- `is_isomorphic`. -/
def isIsomorphic (graphA graphB : List NormalizedTriple) : Bool :=
  if graphA.length ≠ graphB.length then false
  else (getBijection graphA graphB).isSome

/-- `check_bgp_isomorphism`. -/
def checkBgpIsomorphism (bgp1 bgp2 : List Triple) : Except TulnaError Bool :=
  if bgp1.length ≠ bgp2.length then Except.ok false
  else Except.ok (isIsomorphic (normalizeBgp bgp1) (normalizeBgp bgp2))

/-- `GraphIsomorphism::are_isomorphic`. -/
def areIsomorphic (graph1 graph2 : List Triple) : Except TulnaError Bool :=
  checkBgpIsomorphism graph1 graph2

/-- `check_bgp_isomorphism` with explicit deduplicated blank-quad lists
(see `getBijectionWithQuadLists`); used to state determinism. -/
def checkBgpIsomorphismWithQuadLists (bgp1 bgp2 : List Triple)
    (blankQuadsA blankQuadsB : List NormalizedTriple) : Except TulnaError Bool :=
  if bgp1.length ≠ bgp2.length then Except.ok false
  else
    let graphA := normalizeBgp bgp1
    let graphB := normalizeBgp bgp2
    Except.ok (if graphA.length ≠ graphB.length then false
      else (getBijectionWithQuadLists graphA graphB blankQuadsA blankQuadsB).isSome)

/-! ## Predicates used in claim statements -/

/-- The spec's input contract on one node: an IRI or Literal payload must
not begin with `_:`. -/
def nodeOk : TripleNode → Bool
  | TripleNode.IRI s => !strStarts s "_:"
  | TripleNode.Literal s => !strStarts s "_:"
  | _ => true

/-- The spec's input contract on a graph. -/
def graphInputOk (g : List Triple) : Bool :=
  g.all (fun t => nodeOk t.subject && nodeOk t.predicate && nodeOk t.object)

/-- No position of the normalized triple contains the separator `|`. -/
def quadBarFree (q : NormalizedTriple) : Bool :=
  strBarFree q.subject && strBarFree q.predicate && strBarFree q.object

/-- No position of any normalized triple contains the separator `|`. -/
def graphBarFree (g : List NormalizedTriple) : Bool := g.all quadBarFree

/-! ## Predicates and state descriptions used by the proofs -/

/-- The ordering relation underlying `sortStr`, as a `Prop`. -/
def strLeR (a b : String) : Prop := strLe a b = true

/-- The keys of the association list are pairwise distinct (always true for
maps built by `insertKV` from the empty map). -/
def NodupKeys {β : Type} (m : List (String × β)) : Prop := (m.map Prod.fst).Nodup

/-- Whenever both maps bind a key, they bind it to the same hash.  This is
the link between `hashes` and `ungrounded_hashes` inside `hash_terms`. -/
def MapsAgree (h u : HMap) : Prop :=
  ∀ p ∈ u, ∀ v, lookupKV h p.1 = some v → v = p.2

/-- The combined invariant carried through the refinement loop. -/
def PassInv (st : HMap × HMap) : Prop :=
  NodupKeys st.1 ∧ NodupKeys st.2 ∧ MapsAgree st.1 st.2

/-- After `hash_terms`, each term is either in the grounded map or has an
entry in `ungrounded_hashes`. -/
def Covered (terms : List String) (st : HMap × HMap) : Prop :=
  ∀ a ∈ terms, containsKV st.1 a = true ∨ (lookupKV st.2 a).isSome = true

/-- The state `buildBijection` reaches after a processed prefix `pre`, when
both sides are the same node list and the same hash map. -/
def diagState (H : HMap) (pre : List String) :
    List (String × String) × List String :=
  ((pre.filter (fun n => containsKV H n)).map (fun n => (n, n)),
   pre.filter (fun n => containsKV H n))

/-- Equality of two triple lists as sets (used to state C5). -/
def sameTripleSet (l1 l2 : List NormalizedTriple) : Bool :=
  l1.all (fun q => decide (q ∈ l2)) && l2.all (fun q => decide (q ∈ l1))

end Tulna

/-! ## Lemmas about the association-list map -/

namespace Tulna

theorem lookupKV_insertKV_self {β : Type} (m : List (String × β)) (k : String) (v : β) :
    lookupKV (insertKV m k v) k = some v := by
  induction m with
  | nil => simp [insertKV, lookupKV]
  | cons p m ih =>
    by_cases h : p.1 = k
    · simp [insertKV, h, lookupKV]
    · simp [insertKV, h, lookupKV, ih]

theorem lookupKV_insertKV_ne {β : Type} (m : List (String × β)) (k k' : String) (v : β)
    (h : k' ≠ k) : lookupKV (insertKV m k v) k' = lookupKV m k' := by
  have hkk : ¬ (k = k') := fun hh => h hh.symm
  induction m with
  | nil => simp [insertKV, lookupKV, hkk]
  | cons p m ih =>
    by_cases hp : p.1 = k
    · have h1 : insertKV (p :: m) k v = (k, v) :: m := by simp [insertKV, hp]
      have h2 : ¬ (p.1 = k') := by rw [hp]; exact hkk
      rw [h1]
      simp [lookupKV, hkk, h2]
    · have h1 : insertKV (p :: m) k v = p :: insertKV m k v := by simp [insertKV, hp]
      rw [h1]
      by_cases hp' : p.1 = k'
      · simp [lookupKV, hp']
      · simp [lookupKV, hp', ih]

theorem lookupKV_isSome_insertKV {β : Type} (m : List (String × β)) (k k' : String) (v : β)
    (h : (lookupKV m k').isSome = true) :
    (lookupKV (insertKV m k v) k').isSome = true := by
  by_cases hk : k' = k
  · subst hk; rw [lookupKV_insertKV_self]; rfl
  · rw [lookupKV_insertKV_ne m k k' v hk]; exact h

theorem containsKV_insertKV {β : Type} (m : List (String × β)) (k k' : String) (v : β)
    (h : containsKV m k' = true) : containsKV (insertKV m k v) k' = true :=
  lookupKV_isSome_insertKV m k k' v h

theorem mem_of_lookupKV_eq_some {β : Type} {m : List (String × β)} {k : String} {v : β}
    (h : lookupKV m k = some v) : (k, v) ∈ m := by
  induction m with
  | nil => simp [lookupKV] at h
  | cons p m ih =>
    by_cases hp : p.1 = k
    · simp [lookupKV, hp] at h
      have hpe : (k, v) = p := by
        cases p with
        | mk a b => simp_all
      rw [hpe]
      exact List.mem_cons_self p m
    · simp [lookupKV, hp] at h
      exact List.mem_cons_of_mem p (ih h)

theorem lookupKV_eq_none_iff {β : Type} (m : List (String × β)) (k : String) :
    lookupKV m k = none ↔ k ∉ m.map Prod.fst := by
  induction m with
  | nil => simp [lookupKV]
  | cons p m ih =>
    by_cases hp : p.1 = k
    · simp [lookupKV, hp]
    · simp only [lookupKV, hp, if_false, List.map_cons, List.mem_cons]
      rw [ih]
      constructor
      · intro h hh
        rcases hh with hh | hh
        · exact hp hh.symm
        · exact h hh
      · intro h hh
        exact h (Or.inr hh)

theorem lookupKV_isSome_iff {β : Type} (m : List (String × β)) (k : String) :
    (lookupKV m k).isSome = true ↔ k ∈ m.map Prod.fst := by
  constructor
  · intro h
    rcases hlk : lookupKV m k with _ | v
    · rw [hlk] at h; simp at h
    · exact List.mem_map.mpr ⟨(k, v), mem_of_lookupKV_eq_some hlk, rfl⟩
  · intro h
    rcases hlk : lookupKV m k with _ | v
    · exact absurd h ((lookupKV_eq_none_iff m k).mp hlk)
    · rfl

theorem map_fst_insertKV {β : Type} (m : List (String × β)) (k : String) (v : β) :
    (insertKV m k v).map Prod.fst = if containsKV m k then m.map Prod.fst
      else m.map Prod.fst ++ [k] := by
  induction m with
  | nil => simp [insertKV, containsKV, lookupKV]
  | cons p m ih =>
    by_cases hp : p.1 = k
    · have h1 : insertKV (p :: m) k v = (k, v) :: m := by simp [insertKV, hp]
      have h2 : containsKV (p :: m) k = true := by simp [containsKV, lookupKV, hp]
      rw [h1, h2]
      simp [hp]
    · have h1 : insertKV (p :: m) k v = p :: insertKV m k v := by simp [insertKV, hp]
      have h2 : containsKV (p :: m) k = containsKV m k := by
        simp [containsKV, lookupKV, hp]
      rw [h1, List.map_cons, ih, h2]
      by_cases hc : containsKV m k = true
      · simp [hc]
      · simp [hc]

theorem nodupKeys_insertKV {β : Type} (m : List (String × β)) (k : String) (v : β)
    (h : (m.map Prod.fst).Nodup) : ((insertKV m k v).map Prod.fst).Nodup := by
  rw [map_fst_insertKV]
  by_cases hc : containsKV m k = true
  · simp [hc, h]
  · simp only [hc, if_neg, Bool.not_eq_true]
    simp only [Bool.not_eq_true] at hc
    rw [List.nodup_append]
    refine ⟨h, List.nodup_singleton k, ?_⟩
    intro x hx hk
    simp at hk
    subst hk
    have := (lookupKV_isSome_iff m x).mpr hx
    simp [containsKV, this] at hc

theorem elemStr_iff (l : List String) (s : String) : elemStr l s = true ↔ s ∈ l := by
  induction l with
  | nil => simp [elemStr]
  | cons a l ih =>
    simp only [elemStr, Bool.or_eq_true, beq_iff_eq, ih, List.mem_cons]
    constructor
    · rintro (h | h)
      · exact Or.inl h.symm
      · exact Or.inr h
    · rintro (h | h)
      · exact Or.inl h.symm
      · exact Or.inr h

end Tulna

/-! ## Lemmas about the sort -/

namespace Tulna

theorem lexLe_total (l m : List Char) : lexLe l m = true ∨ lexLe m l = true := by
  induction l generalizing m with
  | nil => left; rfl
  | cons a l ih =>
    cases m with
    | nil => right; rfl
    | cons b m =>
      rcases Nat.lt_trichotomy a.toNat b.toNat with h | h | h
      · left; simp [lexLe, h]
      · have h' : ¬ a.toNat < b.toNat := by omega
        have h'' : ¬ b.toNat < a.toNat := by omega
        rcases ih m with hh | hh
        · left; simp [lexLe, h', h'', hh]
        · right; simp [lexLe, h', h'', hh]
      · right; simp [lexLe, h]

theorem lexLe_antisymm {l m : List Char} (h1 : lexLe l m = true) (h2 : lexLe m l = true) :
    l = m := by
  induction l generalizing m with
  | nil =>
    cases m with
    | nil => rfl
    | cons b m => simp [lexLe] at h2
  | cons a l ih =>
    cases m with
    | nil => simp [lexLe] at h1
    | cons b m =>
      rcases Nat.lt_trichotomy a.toNat b.toNat with h | h | h
      · exfalso
        have hh : ¬ b.toNat < a.toNat := by omega
        simp [lexLe, hh, h] at h2
      · have h3 : ¬ a.toNat < b.toNat := by omega
        have h4 : ¬ b.toNat < a.toNat := by omega
        simp only [lexLe, h3, h4, if_false] at h1 h2
        have hab : a = b := Char.ext (UInt32.ext h)
        rw [hab, ih h1 h2]
      · exfalso
        have hh : ¬ a.toNat < b.toNat := by omega
        simp [lexLe, hh, h] at h1

theorem lexLe_trans {l m n : List Char} (h1 : lexLe l m = true) (h2 : lexLe m n = true) :
    lexLe l n = true := by
  induction l generalizing m n with
  | nil => rfl
  | cons a l ih =>
    cases m with
    | nil => simp [lexLe] at h1
    | cons b m =>
      cases n with
      | nil => simp [lexLe] at h2
      | cons c n =>
        by_cases hab1 : a.toNat < b.toNat
        · by_cases hbc1 : b.toNat < c.toNat
          · have hac : a.toNat < c.toNat := by omega
            simp [lexLe, hac]
          · by_cases hbc2 : c.toNat < b.toNat
            · exfalso
              simp [lexLe, hbc1, hbc2] at h2
            · have hac : a.toNat < c.toNat := by omega
              simp [lexLe, hac]
        · by_cases hab2 : b.toNat < a.toNat
          · exfalso
            simp [lexLe, hab1, hab2] at h1
          · by_cases hbc1 : b.toNat < c.toNat
            · have hac : a.toNat < c.toNat := by omega
              simp [lexLe, hac]
            · by_cases hbc2 : c.toNat < b.toNat
              · exfalso
                simp [lexLe, hbc1, hbc2] at h2
              · have hac1 : ¬ a.toNat < c.toNat := by omega
                have hac2 : ¬ c.toNat < a.toNat := by omega
                simp only [lexLe, hab1, hab2, if_false] at h1
                simp only [lexLe, hbc1, hbc2, if_false] at h2
                simp only [lexLe, hac1, hac2, if_false]
                exact ih h1 h2

theorem strLe_total (a b : String) : strLe a b = true ∨ strLe b a = true :=
  lexLe_total a.data b.data

theorem strLe_antisymm {a b : String} (h1 : strLe a b = true) (h2 : strLe b a = true) :
    a = b := String.ext (lexLe_antisymm h1 h2)

theorem strLe_trans {a b c : String} (h1 : strLe a b = true) (h2 : strLe b c = true) :
    strLe a c = true := lexLe_trans h1 h2

theorem perm_insertSorted (a : String) (l : List String) :
    List.Perm (insertSorted a l) (a :: l) := by
  induction l with
  | nil => rfl
  | cons b l ih =>
    by_cases h : strLe a b = true
    · simp [insertSorted, h]
    · simp only [insertSorted, h, if_false]
      exact ((ih.cons b).trans (List.Perm.swap a b l))

theorem sorted_insertSorted (a : String) {l : List String}
    (h : List.Sorted strLeR l) : List.Sorted strLeR (insertSorted a l) := by
  induction l with
  | nil => simp [insertSorted, List.Sorted]
  | cons b l ih =>
    rw [List.sorted_cons] at h
    by_cases hab : strLe a b = true
    · simp only [insertSorted, hab, if_true]
      rw [List.sorted_cons]
      constructor
      · intro x hx
        rcases List.mem_cons.mp hx with hx | hx
        · subst hx; exact hab
        · exact strLe_trans hab (h.1 x hx)
      · rw [List.sorted_cons]; exact h
    · have hab' : strLe a b = false := Bool.eq_false_iff.mpr hab
      simp only [insertSorted, hab', Bool.false_eq_true, if_false]
      rw [List.sorted_cons]
      constructor
      · intro x hx
        have hx' := (perm_insertSorted a l).mem_iff.mp hx
        rcases List.mem_cons.mp hx' with hx' | hx'
        · rw [hx']
          rcases strLe_total a b with hh | hh
          · exact absurd hh hab
          · exact hh
        · exact h.1 x hx'
      · exact ih h.2

theorem sortStr_perm (l : List String) : List.Perm (sortStr l) l := by
  induction l with
  | nil => rfl
  | cons a l ih =>
    have : sortStr (a :: l) = insertSorted a (sortStr l) := rfl
    rw [this]
    exact (perm_insertSorted a (sortStr l)).trans (ih.cons a)

theorem sortStr_sorted (l : List String) : List.Sorted strLeR (sortStr l) := by
  induction l with
  | nil => simp [sortStr, List.Sorted]
  | cons a l ih => exact sorted_insertSorted a ih

theorem sortStr_eq_of_perm {l l' : List String} (h : List.Perm l l') :
    sortStr l = sortStr l' := by
  haveI : IsAntisymm String strLeR := ⟨fun _ _ h1 h2 => strLe_antisymm h1 h2⟩
  exact List.eq_of_perm_of_sorted
    ((sortStr_perm l).trans (h.trans (sortStr_perm l').symm))
    (sortStr_sorted l) (sortStr_sorted l')

theorem perm_of_sortStr_eq {l l' : List String} (h : sortStr l = sortStr l') :
    List.Perm l l' :=
  ((sortStr_perm l).symm.trans (h ▸ List.Perm.refl (sortStr l))).trans (sortStr_perm l')

theorem length_sortStr (l : List String) : (sortStr l).length = l.length :=
  (sortStr_perm l).length_eq

theorem mem_sortStr {x : String} {l : List String} : x ∈ sortStr l ↔ x ∈ l :=
  (sortStr_perm l).mem_iff

theorem nodup_sortStr {l : List String} (h : l.Nodup) : (sortStr l).Nodup :=
  h.perm (sortStr_perm l).symm

end Tulna

/-! ## The orchestrator never surfaces an error -/

namespace Tulna

/-- Every code path of `check_bgp_isomorphism` wraps a boolean in `Ok`. -/
theorem areIsomorphic_ok_total (g1 g2 : List Triple) :
    ∃ b : Bool, areIsomorphic g1 g2 = Except.ok b := by
  unfold areIsomorphic checkBgpIsomorphism
  by_cases h : g1.length ≠ g2.length
  · exact ⟨false, by rw [if_pos h]⟩
  · exact ⟨_, by rw [if_neg h]⟩

/-! ## Claim theorems: C2, C6, C7, C9, C10 -/

/-- C2 (counterexample): the size preflight compares raw, pre-deduplication
triple counts.  Appending a duplicate copy of the (already occurring) triple
`(a, b, c)` to one side makes `are_isomorphic` return `Ok(false)`, where the
claim predicts `true`. -/
theorem c2_counterexample :
    areIsomorphic
      [⟨TripleNode.IRI "a", TripleNode.IRI "b", TripleNode.IRI "c"⟩,
       ⟨TripleNode.IRI "a", TripleNode.IRI "b", TripleNode.IRI "c"⟩]
      [⟨TripleNode.IRI "a", TripleNode.IRI "b", TripleNode.IRI "c"⟩] =
      Except.ok false := by decide

/-- C2 (amended): the size-equality preflight of `check_bgp_isomorphism`
compares raw triple counts before any deduplication, so appending a
duplicate copy of a triple `t` already occurring in `G` makes
`are_isomorphic(G ++ [t], G)` return `Ok(false)`, not `Ok(true)`. -/
theorem c2_theorem (g : List Triple) (t : Triple) (_ht : t ∈ g) :
    areIsomorphic (g ++ [t]) g = Except.ok false := by
  unfold areIsomorphic checkBgpIsomorphism
  rw [if_pos]
  simp [List.length_append]

/-- Witness for C2 at `G = [(a,b,c)]`, `t = (a,b,c)`. -/
theorem c2_witness :
    (⟨TripleNode.IRI "a", TripleNode.IRI "b", TripleNode.IRI "c"⟩ : Triple) ∈
      [(⟨TripleNode.IRI "a", TripleNode.IRI "b", TripleNode.IRI "c"⟩ : Triple)] ∧
    areIsomorphic
      ([⟨TripleNode.IRI "a", TripleNode.IRI "b", TripleNode.IRI "c"⟩] ++
        [⟨TripleNode.IRI "a", TripleNode.IRI "b", TripleNode.IRI "c"⟩])
      [⟨TripleNode.IRI "a", TripleNode.IRI "b", TripleNode.IRI "c"⟩] =
      Except.ok false :=
  ⟨by decide, c2_theorem _ _ (by decide)⟩

/-- C6 (counterexample): on an input whose IRI payload begins with `_:`,
`are_isomorphic` returns `Ok(true)` instead of surfacing an Invalid-input
error — no validation exists anywhere on the path. -/
theorem c6_counterexample :
    areIsomorphic
      [⟨TripleNode.IRI "_:x", TripleNode.IRI "p", TripleNode.IRI "o"⟩]
      [⟨TripleNode.IRI "_:x", TripleNode.IRI "p", TripleNode.IRI "o"⟩] =
      Except.ok true := by decide

/-- C6 (amended): `are_isomorphic` performs no input validation and never
surfaces any error; every input — including those with `_:`-prefixed IRI or
Literal payloads — is processed through normal control flow and answered
with `Ok(_)`.  (The normalizer encodes IRIs as `<…>` and literals as `"…"`,
so such payloads are never confused with blank-node identifiers.) -/
theorem c6_theorem (g1 g2 : List Triple) :
    ∃ b : Bool, areIsomorphic g1 g2 = Except.ok b :=
  areIsomorphic_ok_total g1 g2

/-- C7 (counterexample): the handler that `hash_string` applies to the
hasher's result is `unwrap_or(0)`: a reported failure is replaced by the
default hash value 0, not propagated as a distinct error kind. -/
theorem c7_counterexample :
    unwrapOr0 (Except.error ReadFailure.readFailed) = 0 := rfl

/-- C7 (amended): a failure reported by the murmur3 implementation is
swallowed by `hash_string` (`unwrap_or(0)` substitutes the default hash 0),
and `are_isomorphic` never propagates any error: every call returns `Ok`. -/
theorem c7_theorem :
    (∀ e : ReadFailure, unwrapOr0 (Except.error e) = 0) ∧
    (∀ g1 g2 : List Triple, ∃ b : Bool, areIsomorphic g1 g2 = Except.ok b) :=
  ⟨fun e => by cases e; rfl, areIsomorphic_ok_total⟩

/-- C9 (confirmed): `are_isomorphic` is total over `Ok` — the `Err` branch
is unreachable — and a murmur3 failure would be replaced by the hash value 0
(`unwrap_or(0)`) rather than propagated. -/
theorem c9_theorem :
    (∀ g1 g2 : List Triple, (areIsomorphic g1 g2).isOk = true) ∧
    (∀ e : ReadFailure, unwrapOr0 (Except.error e) = 0) := by
  constructor
  · intro g1 g2
    rcases areIsomorphic_ok_total g1 g2 with ⟨b, hb⟩
    rw [hb]
    rfl
  · intro e
    cases e
    rfl

/-- C10 (confirmed): normalization maps the k-th distinct Variable to
`_:b<k>` and a BlankNode `b` to `_:<b>` unchanged, so `Variable "v"` and
`BlankNode "b0"` in one graph collide on `_:b0`: the one-triple graph
`(?v, p, _:b0)` normalizes to the self-loop `(_:b0, <p>, _:b0)` and is
judged not isomorphic to `(?x, p, ?y)`. -/
theorem c10_theorem :
    normalizeBgp [⟨TripleNode.Variable "v", TripleNode.IRI "p", TripleNode.BlankNode "b0"⟩] =
      [⟨"_:b0", "<p>", "_:b0"⟩] ∧
    normalizeBgp [⟨TripleNode.Variable "x", TripleNode.IRI "p", TripleNode.Variable "y"⟩] =
      [⟨"_:b0", "<p>", "_:b1"⟩] ∧
    areIsomorphic
      [⟨TripleNode.Variable "v", TripleNode.IRI "p", TripleNode.BlankNode "b0"⟩]
      [⟨TripleNode.Variable "x", TripleNode.IRI "p", TripleNode.Variable "y"⟩] =
      Except.ok false ∧
    (∀ (id : String) (m : List (String × String)) (c : Nat),
      normalizeNode (TripleNode.BlankNode id) m c = ("_:" ++ id, m, c)) :=
  ⟨by decide, by decide, by decide, fun _ _ _ => rfl⟩

end Tulna

/-! ## Monotonicity of the grounded map (C8 machinery) -/

namespace Tulna

theorem mem_insertKV {β : Type} {m : List (String × β)} {k : String} {v : β}
    {p : String × β} (h : p ∈ insertKV m k v) : p = (k, v) ∨ p ∈ m := by
  induction m with
  | nil => simp [insertKV] at h; exact Or.inl h
  | cons q m ih =>
    by_cases hq : q.1 = k
    · simp only [insertKV, hq, if_true] at h
      rcases List.mem_cons.mp h with h | h
      · exact Or.inl h
      · exact Or.inr (List.mem_cons_of_mem q h)
    · simp only [insertKV, hq, if_false] at h
      rcases List.mem_cons.mp h with h | h
      · exact Or.inr (h ▸ List.mem_cons_self q m)
      · rcases ih h with h | h
        · exact Or.inl h
        · exact Or.inr (List.mem_cons_of_mem q h)

theorem mem_insertKV_nodup {β : Type} {m : List (String × β)} {k : String} {v : β}
    {p : String × β} (hm : NodupKeys m) (h : p ∈ insertKV m k v) :
    p = (k, v) ∨ (p ∈ m ∧ p.1 ≠ k) := by
  induction m with
  | nil => simp [insertKV] at h; exact Or.inl h
  | cons q m ih =>
    have hm' : NodupKeys m := (List.nodup_cons.mp hm).2
    by_cases hq : q.1 = k
    · simp only [insertKV, hq, if_true] at h
      rcases List.mem_cons.mp h with h | h
      · exact Or.inl h
      · refine Or.inr ⟨List.mem_cons_of_mem q h, ?_⟩
        intro hk
        have : p.1 ∈ m.map Prod.fst := List.mem_map_of_mem Prod.fst h
        rw [hk, ← hq] at this
        exact (List.nodup_cons.mp hm).1 this
    · simp only [insertKV, hq, if_false] at h
      rcases List.mem_cons.mp h with h | h
      · subst h
        exact Or.inr ⟨List.mem_cons_self p m, hq⟩
      · rcases ih hm' h with h | h
        · exact Or.inl h
        · exact Or.inr ⟨List.mem_cons_of_mem q h.1, h.2⟩

theorem eq_of_mem_same_key {β : Type} {m : List (String × β)} {p q : String × β}
    (hm : NodupKeys m) (hp : p ∈ m) (hq : q ∈ m) (hk : p.1 = q.1) : p = q :=
  List.inj_on_of_nodup_map hm hp hq hk

theorem lookupKV_eq_some_of_mem_nodup {β : Type} {m : List (String × β)}
    {p : String × β} (hm : NodupKeys m) (hp : p ∈ m) :
    lookupKV m p.1 = some p.2 := by
  induction m with
  | nil => simp at hp
  | cons q m ih =>
    rcases List.mem_cons.mp hp with h | h
    · subst h; simp [lookupKV]
    · have hm' : NodupKeys m := (List.nodup_cons.mp hm).2
      have hne : ¬ (q.1 = p.1) := by
        intro hh
        exact (List.nodup_cons.mp hm).1 (hh ▸ List.mem_map_of_mem Prod.fst h)
      simp only [lookupKV, hne, if_false]
      exact ih hm' h

/-! Properties of one `hashTermsStep` / one pass. -/

theorem hashTermsStep_lookup_mono (quads : List NormalizedTriple)
    (st : HMap × HMap) (t k : String) (v : Nat)
    (h : lookupKV st.1 k = some v) :
    lookupKV (hashTermsStep quads st t).1 k = some v := by
  unfold hashTermsStep
  by_cases hc : containsKV st.1 t = true
  · simp [hc, h]
  · simp only [hc, Bool.false_eq_true, if_false]
    by_cases hg : (hashTerm t quads st.1).1 = true
    · simp only [hg, if_true]
      have hne : k ≠ t := by
        intro hh
        subst hh
        simp [containsKV, h] at hc
      rw [lookupKV_insertKV_ne _ _ _ _ hne]
      exact h
    · simp [hg, h]

theorem hashTermsStep_contains_mono (quads : List NormalizedTriple)
    (st : HMap × HMap) (t k : String)
    (h : containsKV st.1 k = true) :
    containsKV (hashTermsStep quads st t).1 k = true := by
  rcases Option.isSome_iff_exists.mp h with ⟨v, hv⟩
  have := hashTermsStep_lookup_mono quads st t k v hv
  simp [containsKV, this]

theorem hashTermsStep_snd_isSome_mono (quads : List NormalizedTriple)
    (st : HMap × HMap) (t k : String)
    (h : (lookupKV st.2 k).isSome = true) :
    (lookupKV (hashTermsStep quads st t).2 k).isSome = true := by
  unfold hashTermsStep
  by_cases hc : containsKV st.1 t = true
  · simp [hc, h]
  · simp only [hc, Bool.false_eq_true, if_false]
    exact lookupKV_isSome_insertKV _ _ _ _ h

theorem hashTermsPass_lookup_mono (quads : List NormalizedTriple)
    (terms : List String) (st : HMap × HMap) (k : String) (v : Nat)
    (h : lookupKV st.1 k = some v) :
    lookupKV (hashTermsPass quads terms st).1 k = some v := by
  induction terms generalizing st with
  | nil => exact h
  | cons t ts ih =>
    exact ih (hashTermsStep quads st t) (hashTermsStep_lookup_mono quads st t k v h)

theorem hashTermsPass_contains_mono (quads : List NormalizedTriple)
    (terms : List String) (st : HMap × HMap) (k : String)
    (h : containsKV st.1 k = true) :
    containsKV (hashTermsPass quads terms st).1 k = true := by
  induction terms generalizing st with
  | nil => exact h
  | cons t ts ih =>
    exact ih (hashTermsStep quads st t) (hashTermsStep_contains_mono quads st t k h)

theorem hashTermsPass_snd_isSome_mono (quads : List NormalizedTriple)
    (terms : List String) (st : HMap × HMap) (k : String)
    (h : (lookupKV st.2 k).isSome = true) :
    (lookupKV (hashTermsPass quads terms st).2 k).isSome = true := by
  induction terms generalizing st with
  | nil => exact h
  | cons t ts ih =>
    exact ih (hashTermsStep quads st t) (hashTermsStep_snd_isSome_mono quads st t k h)

theorem hashTermsStep_passInv (quads : List NormalizedTriple)
    (st : HMap × HMap) (t : String) (h : PassInv st) :
    PassInv (hashTermsStep quads st t) := by
  obtain ⟨h1, h2, h3⟩ := h
  unfold hashTermsStep
  by_cases hc : containsKV st.1 t = true
  · simpa [hc] using ⟨h1, h2, h3⟩
  · simp only [hc, Bool.false_eq_true, if_false]
    refine ⟨?_, nodupKeys_insertKV _ _ _ h2, ?_⟩
    · by_cases hg : (hashTerm t quads st.1).1 = true
      · simpa [hg] using nodupKeys_insertKV _ _ _ h1
      · simpa [hg] using h1
    · intro p hp v hv
      rcases mem_insertKV_nodup h2 hp with hpe | ⟨hpm, hpne⟩
      · subst hpe
        simp only at hv ⊢
        by_cases hg : (hashTerm t quads st.1).1 = true
        · simp only [hg, if_true] at hv
          rw [lookupKV_insertKV_self] at hv
          exact (Option.some_inj.mp hv).symm
        · simp only [hg, Bool.false_eq_true, if_false] at hv
          have hnone : lookupKV st.1 t = none := by
            cases hlk : lookupKV st.1 t with
            | none => rfl
            | some w => simp [containsKV, hlk] at hc
          rw [hnone] at hv
          cases hv
      · simp only at hv
        by_cases hg : (hashTerm t quads st.1).1 = true
        · simp only [hg, if_true] at hv
          rw [lookupKV_insertKV_ne _ _ _ _ hpne] at hv
          exact h3 p hpm v hv
        · simp only [hg, Bool.false_eq_true, if_false] at hv
          exact h3 p hpm v hv

theorem hashTermsPass_passInv (quads : List NormalizedTriple)
    (terms : List String) (st : HMap × HMap) (h : PassInv st) :
    PassInv (hashTermsPass quads terms st) := by
  induction terms generalizing st with
  | nil => exact h
  | cons t ts ih => exact ih _ (hashTermsStep_passInv quads st t h)

/-! Properties of the promotion fold. -/

theorem foldl_insert_lookup_mono (l : List (String × Nat)) (h u : HMap)
    (hu : NodupKeys u) (hl : ∀ p ∈ l, p ∈ u) (ha : MapsAgree h u)
    (k : String) (v : Nat) (hv : lookupKV h k = some v) :
    lookupKV (l.foldl (fun h p => insertKV h p.1 p.2) h) k = some v := by
  induction l generalizing h with
  | nil => exact hv
  | cons p l ih =>
    have hpu : p ∈ u := hl p (List.mem_cons_self p l)
    refine ih (insertKV h p.1 p.2) (fun q hq => hl q (List.mem_cons_of_mem p hq)) ?_ ?_
    · intro q hq w hw
      by_cases hk : q.1 = p.1
      · rw [hk, lookupKV_insertKV_self] at hw
        have : q = p := eq_of_mem_same_key hu hq hpu hk
        rw [this]
        exact (Option.some_inj.mp hw).symm
      · rw [lookupKV_insertKV_ne _ _ _ _ hk] at hw
        exact ha q hq w hw
    · by_cases hk : k = p.1
      · subst hk
        have := ha p hpu v hv
        rw [lookupKV_insertKV_self, this]
      · rw [lookupKV_insertKV_ne _ _ _ _ hk]
        exact hv

theorem foldl_insert_isSome_mono (l : List (String × Nat)) (h : HMap)
    (k : String) (hv : (lookupKV h k).isSome = true) :
    (lookupKV (l.foldl (fun h p => insertKV h p.1 p.2) h) k).isSome = true := by
  induction l generalizing h with
  | nil => exact hv
  | cons p l ih => exact ih _ (lookupKV_isSome_insertKV _ _ _ _ hv)

theorem foldl_insert_nodupKeys (l : List (String × Nat)) (h : HMap)
    (hh : NodupKeys h) :
    NodupKeys (l.foldl (fun h p => insertKV h p.1 p.2) h) := by
  induction l generalizing h with
  | nil => exact hh
  | cons p l ih => exact ih _ (nodupKeys_insertKV _ _ _ hh)

theorem uniqueHashOwners_subset (u : HMap) : ∀ p ∈ uniqueHashOwners u, p ∈ u :=
  fun p hp => List.mem_of_mem_filter hp

theorem promoteUnique_lookup_mono (h u : HMap) (hu : NodupKeys u)
    (ha : MapsAgree h u) (k : String) (v : Nat) (hv : lookupKV h k = some v) :
    lookupKV (promoteUnique h u) k = some v :=
  foldl_insert_lookup_mono _ h u hu (uniqueHashOwners_subset u) ha k v hv

theorem promoteUnique_contains_mono (h u : HMap) (k : String)
    (hv : containsKV h k = true) : containsKV (promoteUnique h u) k = true :=
  foldl_insert_isSome_mono _ h k hv

theorem foldl_insert_mapsAgree (l : List (String × Nat)) (h u : HMap)
    (hu : NodupKeys u) (hl : ∀ p ∈ l, p ∈ u) (ha : MapsAgree h u) :
    MapsAgree (l.foldl (fun h p => insertKV h p.1 p.2) h) u := by
  induction l generalizing h with
  | nil => exact ha
  | cons p l ih =>
    have hpu : p ∈ u := hl p (List.mem_cons_self p l)
    refine ih (insertKV h p.1 p.2) (fun q hq => hl q (List.mem_cons_of_mem p hq)) ?_
    intro q hq w hw
    by_cases hk : q.1 = p.1
    · rw [hk, lookupKV_insertKV_self] at hw
      have : q = p := eq_of_mem_same_key hu hq hpu hk
      rw [this]
      exact (Option.some_inj.mp hw).symm
    · rw [lookupKV_insertKV_ne _ _ _ _ hk] at hw
      exact ha q hq w hw

theorem promoteUnique_mapsAgree (h u : HMap) (hu : NodupKeys u)
    (ha : MapsAgree h u) : MapsAgree (promoteUnique h u) u :=
  foldl_insert_mapsAgree _ h u hu (uniqueHashOwners_subset u) ha

theorem promoteUnique_nodupKeys (h u : HMap) (hh : NodupKeys h) :
    NodupKeys (promoteUnique h u) :=
  foldl_insert_nodupKeys _ h hh

/-! Monotonicity through the whole refinement loop. -/

theorem hashTermsLoop_lookup_mono (fuel : Nat) (quads : List NormalizedTriple)
    (terms : List String) (st : HMap × HMap) (hinv : PassInv st)
    (k : String) (v : Nat) (hv : lookupKV st.1 k = some v) :
    lookupKV (hashTermsLoop fuel quads terms st).1 k = some v := by
  induction fuel generalizing st with
  | zero => exact hv
  | succ fuel ih =>
    unfold hashTermsLoop
    have hinv1 := hashTermsPass_passInv quads terms st hinv
    have hv1 := hashTermsPass_lookup_mono quads terms st k v hv
    have hv2 := promoteUnique_lookup_mono _ _ hinv1.2.1 hinv1.2.2 k v hv1
    by_cases hstop :
        (promoteUnique (hashTermsPass quads terms st).1
          (hashTermsPass quads terms st).2).length = st.1.length
    · simp only [hstop, if_true]
      exact hv2
    · simp only [hstop, if_false]
      refine ih _ ⟨?_, hinv1.2.1, ?_⟩ hv2
      · exact promoteUnique_nodupKeys _ _ hinv1.1
      · exact promoteUnique_mapsAgree _ _ hinv1.2.1 hinv1.2.2

theorem hashTermsLoop_contains_mono (fuel : Nat) (quads : List NormalizedTriple)
    (terms : List String) (st : HMap × HMap)
    (k : String) (hv : containsKV st.1 k = true) :
    containsKV (hashTermsLoop fuel quads terms st).1 k = true := by
  induction fuel generalizing st with
  | zero => exact hv
  | succ fuel ih =>
    unfold hashTermsLoop
    have hv1 := hashTermsPass_contains_mono quads terms st k hv
    have hv2 := promoteUnique_contains_mono _ (hashTermsPass quads terms st).2 k hv1
    by_cases hstop :
        (promoteUnique (hashTermsPass quads terms st).1
          (hashTermsPass quads terms st).2).length = st.1.length
    · simp only [hstop, if_true]
      exact hv2
    · simp only [hstop, if_false]
      exact ih _ hv2

/-- Entries of the incoming grounded map survive `hash_terms` unchanged. -/
theorem hashTerms_lookup_mono (quads : List NormalizedTriple)
    (terms : List String) (G : HMap) (hG : NodupKeys G)
    (k : String) (v : Nat) (hv : lookupKV G k = some v) :
    lookupKV (hashTerms quads terms G).1 k = some v :=
  hashTermsLoop_lookup_mono _ quads terms (G, [])
    ⟨hG, List.nodup_nil, fun p hp => absurd hp (List.not_mem_nil p)⟩ k v hv

/-- A key of the incoming grounded map stays present through `hash_terms`. -/
theorem hashTerms_contains_mono (quads : List NormalizedTriple)
    (terms : List String) (G : HMap) (k : String)
    (hv : containsKV G k = true) :
    containsKV (hashTerms quads terms G).1 k = true :=
  hashTermsLoop_contains_mono _ quads terms (G, []) k hv

end Tulna

namespace Tulna

/-- C8 (confirmed): the grounded map is monotone throughout one call.
Across the whole refinement loop of `hash_terms` every incoming entry keeps
its key and its exact 64-bit value (first conjunct), and a speculation frame
of `get_bijection_inner` — which may only pick a `node` that is absent from
the grounded hashes `hash_terms` returned — extends the grounded map by a
fresh key, leaving every existing entry unchanged (second conjunct). -/
theorem c8_theorem (quads : List NormalizedTriple) (terms : List String) (G : HMap)
    (hG : NodupKeys G) :
    (∀ k v, lookupKV G k = some v → lookupKV (hashTerms quads terms G).1 k = some v) ∧
    (∀ node h, containsKV (hashTerms quads terms G).1 node = false →
      ∀ k v, lookupKV G k = some v → lookupKV (insertKV G node h) k = some v) := by
  constructor
  · intro k v hv
    exact hashTerms_lookup_mono quads terms G hG k v hv
  · intro node h hnode k v hv
    have hne : k ≠ node := by
      intro hk
      subst hk
      have : containsKV G k = true := by simp [containsKV, hv]
      rw [hashTerms_contains_mono quads terms G k this] at hnode
      cases hnode
    rw [lookupKV_insertKV_ne _ _ _ _ hne]
    exact hv

/-- Witness for C8 at `quads = []`, `terms = ["_:a"]`, `G = [("_:x", 5)]`. -/
theorem c8_witness :
    NodupKeys [("_:x", (5 : Nat))] ∧
    ((∀ k v, lookupKV [("_:x", (5 : Nat))] k = some v →
        lookupKV (hashTerms [] ["_:a"] [("_:x", (5 : Nat))]).1 k = some v) ∧
     (∀ node h, containsKV (hashTerms [] ["_:a"] [("_:x", (5 : Nat))]).1 node = false →
        ∀ k v, lookupKV [("_:x", (5 : Nat))] k = some v →
          lookupKV (insertKV [("_:x", (5 : Nat))] node h) k = some v)) :=
  ⟨by unfold NodupKeys; decide, c8_theorem [] ["_:a"] [("_:x", 5)] (by unfold NodupKeys; decide)⟩

end Tulna

/-! ## Coverage: every term ends up grounded or recorded in `ungrounded_hashes` -/

namespace Tulna

theorem hashTermsStep_self_covered (quads : List NormalizedTriple)
    (st : HMap × HMap) (t : String) :
    containsKV (hashTermsStep quads st t).1 t = true ∨
    (lookupKV (hashTermsStep quads st t).2 t).isSome = true := by
  unfold hashTermsStep
  by_cases hc : containsKV st.1 t = true
  · left; simpa [hc] using hc
  · right
    simp only [hc, Bool.false_eq_true, if_false]
    rw [lookupKV_insertKV_self]
    rfl

theorem hashTermsPass_covered (quads : List NormalizedTriple)
    (terms : List String) (st : HMap × HMap) :
    Covered terms (hashTermsPass quads terms st) := by
  induction terms generalizing st with
  | nil => intro a ha; cases ha
  | cons t ts ih =>
    intro a ha
    rcases List.mem_cons.mp ha with ha | ha
    · subst ha
      rcases hashTermsStep_self_covered quads st a with h | h
      · exact Or.inl (hashTermsPass_contains_mono quads ts _ a h)
      · exact Or.inr (hashTermsPass_snd_isSome_mono quads ts _ a h)
    · exact ih (hashTermsStep quads st t) a ha

theorem covered_promote (terms : List String) (st : HMap × HMap)
    (h : Covered terms st) :
    Covered terms (promoteUnique st.1 st.2, st.2) := by
  intro a ha
  rcases h a ha with h | h
  · exact Or.inl (promoteUnique_contains_mono st.1 st.2 a h)
  · exact Or.inr h

theorem hashTermsLoop_succ_covered (fuel : Nat) (quads : List NormalizedTriple)
    (terms : List String) (st : HMap × HMap) :
    Covered terms (hashTermsLoop (fuel + 1) quads terms st) := by
  induction fuel generalizing st with
  | zero =>
    unfold hashTermsLoop
    have hcov := covered_promote terms _ (hashTermsPass_covered quads terms st)
    by_cases hstop :
        (promoteUnique (hashTermsPass quads terms st).1
          (hashTermsPass quads terms st).2).length = st.1.length
    · simpa [hstop] using hcov
    · simp only [hstop, if_false]
      unfold hashTermsLoop
      exact hcov
  | succ fuel ih =>
    unfold hashTermsLoop
    have hcov := covered_promote terms _ (hashTermsPass_covered quads terms st)
    by_cases hstop :
        (promoteUnique (hashTermsPass quads terms st).1
          (hashTermsPass quads terms st).2).length = st.1.length
    · simpa [hstop] using hcov
    · simp only [hstop, if_false]
      exact ih _

theorem hashTerms_covered (quads : List NormalizedTriple) (terms : List String)
    (G : HMap) : Covered terms (hashTerms quads terms G) :=
  hashTermsLoop_succ_covered terms.length quads terms (G, [])

end Tulna

/-! ## The grounded-matching loop on two identical sides pairs each node
with itself -/

namespace Tulna

theorem hashContainsValue_self (m : HMap) :
    m.all (fun p => hashContainsValue m p.2) = true := by
  rw [List.all_eq_true]
  intro p hp
  unfold hashContainsValue
  rw [List.any_eq_true]
  exact ⟨p, hp, by simp⟩

theorem buildBijection_self_aux (B : List String) (H : HMap) (hB : B.Nodup) :
    ∀ pre suf, B = pre ++ suf →
      suf.foldl (fun st nodeA =>
        match lookupKV H nodeA with
        | none => st
        | some hashA => buildBijectionStep B H hashA st nodeA) (diagState H pre) =
      diagState H B := by
  intro pre suf
  induction suf generalizing pre with
  | nil => intro h; rw [h, List.append_nil]; rfl
  | cons a suf ih =>
    intro h
    have hstep :
        (match lookupKV H a with
         | none => diagState H pre
         | some hashA => buildBijectionStep B H hashA (diagState H pre) a) =
        diagState H (pre ++ [a]) := by
      rcases hlk : lookupKV H a with _ | x
      · have hca : containsKV H a = false := by simp [containsKV, hlk]
        simp only [diagState, List.filter_append, List.filter_cons, hca,
          Bool.false_eq_true, if_false, List.filter_nil, List.append_nil]
      · have hca : containsKV H a = true := by simp [containsKV, hlk]
        have hanotpre : a ∉ pre := by
          intro hmem
          have : ¬ B.Nodup := by
            rw [h]
            intro hnd
            rcases List.nodup_append.mp hnd with ⟨_, _, hdisj⟩
            exact hdisj hmem (List.mem_cons_self a suf)
          exact this hB
        have hfind :
            B.find? (fun nodeB => !elemStr (diagState H pre).2 nodeB &&
              decide (lookupKV H nodeB = some x)) = some a := by
          rw [h, List.find?_append]
          have hpre : List.find? (fun nodeB => !elemStr (diagState H pre).2 nodeB &&
              decide (lookupKV H nodeB = some x)) pre = none := by
            rw [List.find?_eq_none]
            intro b hb
            by_cases hcb : containsKV H b = true
            · have hbused : b ∈ (diagState H pre).2 :=
                List.mem_filter.mpr ⟨hb, hcb⟩
              have : elemStr (diagState H pre).2 b = true := (elemStr_iff _ _).mpr hbused
              simp [this]
            · have hnone : lookupKV H b = none := by
                cases hlk2 : lookupKV H b with
                | none => rfl
                | some w => simp [containsKV, hlk2] at hcb
              simp [hnone]
          rw [hpre]
          have hused : elemStr (diagState H pre).2 a = false := by
            rw [Bool.eq_false_iff]
            intro hcontra
            exact hanotpre (List.mem_of_mem_filter ((elemStr_iff _ _).mp hcontra))
          simp [List.find?_cons, hused, hlk]
        simp only [buildBijectionStep, hfind]
        simp only [diagState, List.filter_append, List.filter_cons, hca,
          if_true, List.filter_nil, List.map_append]
        rfl
    calc (a :: suf).foldl (fun st nodeA =>
            match lookupKV H nodeA with
            | none => st
            | some hashA => buildBijectionStep B H hashA st nodeA)
            (diagState H pre)
        = suf.foldl (fun st nodeA =>
            match lookupKV H nodeA with
            | none => st
            | some hashA => buildBijectionStep B H hashA st nodeA)
            (diagState H (pre ++ [a])) := by rw [List.foldl_cons, hstep]
      _ = diagState H B := ih (pre ++ [a]) (by rw [h, List.append_assoc]; rfl)

theorem buildBijection_self (B : List String) (H : HMap) (hB : B.Nodup) :
    buildBijection B B H H = diagState H B := by
  have := buildBijection_self_aux B H hB [] B rfl
  simpa [buildBijection, diagState] using this

theorem lookupKV_diag_getD (F : List String) (x : String) :
    (lookupKV (F.map (fun n => (n, n))) x).getD x = x := by
  induction F with
  | nil => rfl
  | cons f F ih =>
    by_cases hf : f = x
    · simp [lookupKV, hf]
    · simp only [List.map_cons, lookupKV, hf, if_false]
      exact ih

theorem applyBijection_diag (F : List String) (q : NormalizedTriple) :
    applyBijection (F.map (fun n => (n, n))) q = q := by
  unfold applyBijection
  rw [lookupKV_diag_getD, lookupKV_diag_getD, lookupKV_diag_getD]

theorem verifyBijection_self (Q : List NormalizedTriple) (F : List String) :
    verifyBijection Q Q (F.map (fun n => (n, n))) = true := by
  unfold verifyBijection
  rw [Bool.and_eq_true]
  constructor
  · simp
  · rw [List.all_eq_true]
    intro q hq
    rw [applyBijection_diag]
    exact (elemStr_iff _ _).mpr (List.mem_dedup.mpr (List.mem_map_of_mem quadKey hq))

theorem length_filter_lt_of_mem_not {α : Type} (l : List α) (p : α → Bool)
    (a : α) (ha : a ∈ l) (hpa : p a = false) :
    (l.filter p).length < l.length := by
  induction l with
  | nil => cases ha
  | cons b l ih =>
    rcases List.mem_cons.mp ha with h | h
    · subst h
      rw [List.filter_cons, hpa]
      simp only [Bool.false_eq_true, if_false, List.length_cons]
      exact Nat.lt_succ_of_le (List.length_filter_le p l)
    · rw [List.filter_cons]
      by_cases hb : p b = true
      · simp only [hb, if_true, List.length_cons]
        exact Nat.succ_lt_succ (ih h)
      · simp only [hb, if_false, List.length_cons]
        exact Nat.lt_succ_of_lt (ih h)

theorem findSome?_isSome_of_ex {α β : Type} (l : List α) (f : α → Option β)
    (h : ∃ x ∈ l, (f x).isSome = true) : (l.findSome? f).isSome = true := by
  induction l with
  | nil => rcases h with ⟨x, hx, _⟩; cases hx
  | cons a l ih =>
    rw [List.findSome?_cons]
    rcases hfa : f a with _ | b
    · rcases h with ⟨x, hx, hsome⟩
      rcases List.mem_cons.mp hx with hx | hx
      · subst hx; rw [hfa] at hsome; cases hsome
      · exact ih ⟨x, hx, hsome⟩
    · rfl

end Tulna

/-! ## Reflexivity (C4 machinery): on two identical sides the speculative
search always succeeds -/

namespace Tulna

theorem containsKV_insertKV_self {β : Type} (m : List (String × β)) (k : String)
    (v : β) : containsKV (insertKV m k v) k = true := by
  unfold containsKV
  rw [lookupKV_insertKV_self]
  rfl

theorem containsKV_insertKV_ne {β : Type} (m : List (String × β)) (k k' : String)
    (v : β) (h : k' ≠ k) : containsKV (insertKV m k v) k' = containsKV m k' := by
  unfold containsKV
  rw [lookupKV_insertKV_ne _ _ _ _ h]

/-- Grounding one previously ungrounded node of `B` shrinks the ungrounded
count of `B` by exactly one. -/
theorem length_filter_not_contains_insertKV (B : List String) (G : HMap)
    (a : String) (x : Nat) (hB : B.Nodup) (ha : a ∈ B)
    (hna : containsKV G a = false) :
    (B.filter (fun t => !containsKV (insertKV G a x) t)).length + 1 =
    (B.filter (fun t => !containsKV G t)).length := by
  induction B with
  | nil => cases ha
  | cons b B ih =>
    have hnodup := List.nodup_cons.mp hB
    by_cases hba : b = a
    · subst hba
      have hps : (!containsKV (insertKV G b x) b) = false := by
        rw [containsKV_insertKV_self]
        rfl
      have hpo : (!containsKV G b) = true := by rw [hna]; rfl
      rw [List.filter_cons, List.filter_cons, hps, hpo]
      simp only [Bool.false_eq_true, if_false, if_true, List.length_cons]
      have hcongr : B.filter (fun t => !containsKV (insertKV G b x) t) =
          B.filter (fun t => !containsKV G t) := by
        apply List.filter_congr
        intro t ht
        have : t ≠ b := fun hh => hnodup.1 (hh ▸ ht)
        rw [containsKV_insertKV_ne _ _ _ _ this]
      rw [hcongr]
    · have haB : a ∈ B := by
        rcases List.mem_cons.mp ha with h | h
        · exact absurd h.symm hba
        · exact h
      have hpb : (!containsKV (insertKV G a x) b) = (!containsKV G b) := by
        rw [containsKV_insertKV_ne _ _ _ _ hba]
      rw [List.filter_cons, List.filter_cons, hpb]
      by_cases hcb : (!containsKV G b) = true
      · simp only [hcb, if_true, List.length_cons]
        have := ih hnodup.2 haB
        omega
      · simp only [hcb, if_false]
        exact ih hnodup.2 haB

theorem getBijectionInner_self_isSome (fuel : Nat) (Q : List NormalizedTriple)
    (B : List String) (G : HMap) (hB : B.Nodup)
    (hfuel : (B.filter (fun t => !containsKV G t)).length < fuel) :
    (getBijectionInner fuel Q Q B B G G).isSome = true := by
  induction fuel generalizing G with
  | zero => exact absurd hfuel (Nat.not_lt_zero _)
  | succ fuel ih =>
    simp only [getBijectionInner]
    have h1 : ¬((hashTerms Q B G).1.length ≠ (hashTerms Q B G).1.length) := by simp
    rw [if_neg h1]
    have h2 : (!((hashTerms Q B G).1.all
        (fun p => hashContainsValue (hashTerms Q B G).1 p.2))) = false := by
      rw [hashContainsValue_self]
      rfl
    rw [h2]
    simp only [Bool.false_eq_true, if_false]
    rw [buildBijection_self B (hashTerms Q B G).1 hB]
    by_cases hall : ∀ n ∈ B, containsKV (hashTerms Q B G).1 n = true
    · have hFB : B.filter (fun n => containsKV (hashTerms Q B G).1 n) = B :=
        List.filter_eq_self.mpr hall
      have hkeys : ((diagState (hashTerms Q B G).1 B).1.map Prod.fst) = B := by
        simp [diagState, hFB, List.map_map, Function.comp_def]
      have hvals : ((diagState (hashTerms Q B G).1 B).1.map Prod.snd) = B := by
        simp [diagState, hFB, List.map_map, Function.comp_def]
      rw [if_neg]
      · have hbij : (diagState (hashTerms Q B G).1 B).1 =
            B.map (fun n => (n, n)) := by
          simp [diagState, hFB]
        rw [hbij, verifyBijection_self]
        simp
      · rw [hkeys, hvals]
        simp
    · push_neg at hall
      obtain ⟨a, ha, hna'⟩ := hall
      have hna : containsKV (hashTerms Q B G).1 a = false :=
        Bool.eq_false_iff.mpr hna'
      have hkeys : ((diagState (hashTerms Q B G).1 B).1.map Prod.fst) =
          B.filter (fun n => containsKV (hashTerms Q B G).1 n) := by
        simp [diagState, List.map_map, Function.comp_def]
      have hlt : (B.filter (fun n => containsKV (hashTerms Q B G).1 n)).length <
          B.length :=
        length_filter_lt_of_mem_not B _ a ha hna
      rw [if_pos]
      · apply findSome?_isSome_of_ex
        refine ⟨a, ha, ?_⟩
        rw [if_neg (by rw [hna]; exact Bool.false_ne_true)]
        apply findSome?_isSome_of_ex
        refine ⟨a, ha, ?_⟩
        rw [if_neg (by rw [hna]; exact Bool.false_ne_true)]
        rcases hashTerms_covered Q B G a ha with hcov | hcov
        · rw [hcov] at hna; cases hna
        · obtain ⟨w, hw⟩ := Option.isSome_iff_exists.mp hcov
          rw [hw]
          change (if w = w then getBijectionInner fuel Q Q B B
            (insertKV G a (hashString a)) (insertKV G a (hashString a))
            else none).isSome = true
          rw [if_pos rfl]
          apply ih
          have hGa : containsKV G a = false := by
            cases hG : containsKV G a with
            | false => rfl
            | true =>
              rw [hashTerms_contains_mono Q B G a hG] at hna
              cases hna
          have := length_filter_not_contains_insertKV B G a (hashString a) hB ha hGa
          have hmem : a ∈ B.filter (fun t => !containsKV G t) :=
            List.mem_filter.mpr ⟨ha, by rw [hGa]; rfl⟩
          have hpos : 0 < (B.filter (fun t => !containsKV G t)).length :=
            List.length_pos_of_mem hmem
          omega
      · left
        intro heq
        have := congrArg List.length heq
        rw [hkeys, length_sortStr, length_sortStr] at this
        omega

end Tulna

namespace Tulna

theorem all_elemStr_self (l : List String) : l.all (fun key => elemStr l key) = true := by
  rw [List.all_eq_true]
  intro x hx
  exact (elemStr_iff l x).mpr hx

theorem nodup_getGraphBlankNodes (g : List NormalizedTriple) :
    (getGraphBlankNodes g).Nodup :=
  nodup_sortStr (List.nodup_dedup _)

theorem isIsomorphic_self (g : List NormalizedTriple) : isIsomorphic g g = true := by
  unfold isIsomorphic
  rw [if_neg (by simp)]
  unfold getBijection getBijectionWithQuadLists
  rw [if_neg (by simp)]
  rw [all_elemStr_self]
  simp only [Bool.not_true, Bool.false_eq_true, if_false]
  rw [if_neg (by simp)]
  apply getBijectionInner_self_isSome _ _ _ _ (nodup_getGraphBlankNodes g)
  have hfil : (getGraphBlankNodes g).filter (fun t => !containsKV ([] : HMap) t) =
      getGraphBlankNodes g :=
    List.filter_eq_self.mpr (fun t _ => rfl)
  rw [hfil]
  omega

/-- C4 (confirmed): `are_isomorphic(G, G) = Ok(true)` for every graph whose
IRI and Literal payloads do not begin with `_:` (the hypothesis is the
spec's input contract; reflexivity in fact holds without it).  On identical
sides the grounded-matching loop pairs every grounded node with itself, and
whenever ungrounded nodes remain the speculative search can always ground
the first such node against itself and recurse, so the identity bijection is
eventually found and verified. -/
theorem c4_theorem (g : List Triple) (_h : graphInputOk g = true) :
    areIsomorphic g g = Except.ok true := by
  unfold areIsomorphic checkBgpIsomorphism
  rw [if_neg (by simp)]
  rw [isIsomorphic_self]

/-- Witness for C4 at the graph `{ (?x, <p>, "v") }`. -/
theorem c4_witness :
    graphInputOk [⟨TripleNode.Variable "x", TripleNode.IRI "p",
      TripleNode.Literal "v"⟩] = true ∧
    areIsomorphic
      [⟨TripleNode.Variable "x", TripleNode.IRI "p", TripleNode.Literal "v"⟩]
      [⟨TripleNode.Variable "x", TripleNode.IRI "p", TripleNode.Literal "v"⟩] =
      Except.ok true :=
  ⟨by decide, c4_theorem _ (by decide)⟩

end Tulna

/-! ## Injectivity of the `"s|p|o"` key on `|`-free triples, and the
`uniq_graph` round trip (C1/C5 machinery) -/

namespace Tulna

theorem strBarFree_iff (s : String) : strBarFree s = true ↔ '|' ∉ s.data := by
  unfold strBarFree
  rw [List.all_eq_true]
  constructor
  · intro h hmem
    have := h _ hmem
    simp at this
  · intro h c hc
    simp only [Bool.not_eq_true']
    rw [Bool.eq_false_iff]
    intro hb
    rw [beq_iff_eq] at hb
    exact h (hb ▸ hc)

theorem string_mk_data (s : String) : String.mk s.data = s := by
  cases s
  rfl

theorem quadKey_data (q : NormalizedTriple) :
    (quadKey q).data =
      q.subject.data ++ '|' :: (q.predicate.data ++ '|' :: q.object.data) := by
  have hbar : ("|" : String).data = ['|'] := rfl
  unfold quadKey
  simp [String.data_append, hbar]

theorem bar_append_inj {as bs cs ds : List Char} (ha : '|' ∉ as) (hc : '|' ∉ cs)
    (h : as ++ '|' :: bs = cs ++ '|' :: ds) : as = cs ∧ bs = ds := by
  induction as generalizing cs with
  | nil =>
    cases cs with
    | nil => simpa using h
    | cons c cs' =>
      exfalso
      rw [List.nil_append, List.cons_append] at h
      injection h with h1 _
      exact hc (h1 ▸ List.mem_cons_self c cs')
  | cons a as' ih =>
    cases cs with
    | nil =>
      exfalso
      rw [List.nil_append, List.cons_append] at h
      injection h with h1 _
      exact ha (h1 ▸ List.mem_cons_self a as')
    | cons c cs' =>
      rw [List.cons_append, List.cons_append] at h
      injection h with h1 h2
      have ha' : '|' ∉ as' := fun hh => ha (List.mem_cons_of_mem a hh)
      have hc' : '|' ∉ cs' := fun hh => hc (List.mem_cons_of_mem c hh)
      obtain ⟨he, he2⟩ := ih ha' hc' h2
      exact ⟨by rw [h1, he], he2⟩

theorem quadKey_inj {q q' : NormalizedTriple} (hq : quadBarFree q = true)
    (hq' : quadBarFree q' = true) (h : quadKey q = quadKey q') : q = q' := by
  unfold quadBarFree at hq hq'
  rw [Bool.and_eq_true, Bool.and_eq_true] at hq hq'
  obtain ⟨⟨hs, hp⟩, ho⟩ := hq
  obtain ⟨⟨hs', hp'⟩, ho'⟩ := hq'
  have hd := congrArg String.data h
  rw [quadKey_data, quadKey_data] at hd
  obtain ⟨h1, h2⟩ := bar_append_inj ((strBarFree_iff _).mp hs)
    ((strBarFree_iff _).mp hs') hd
  obtain ⟨h3, h4⟩ := bar_append_inj ((strBarFree_iff _).mp hp)
    ((strBarFree_iff _).mp hp') h2
  cases q with
  | mk s p o =>
    cases q' with
    | mk s' p' o' =>
      simp only at h1 h3 h4
      have e1 : s = s' := String.ext h1
      have e2 : p = p' := String.ext h3
      have e3 : o = o' := String.ext h4
      rw [e1, e2, e3]

theorem splitBarChars_barFree (as : List Char) (ha : '|' ∉ as) :
    splitBarChars as = [as] := by
  induction as with
  | nil => rfl
  | cons a as ih =>
    have hne : (a == '|') = false := by
      rw [Bool.eq_false_iff]
      intro hb
      rw [beq_iff_eq] at hb
      exact ha (hb ▸ List.mem_cons_self a as)
    have ha' : '|' ∉ as := fun hh => ha (List.mem_cons_of_mem a hh)
    simp only [splitBarChars, hne, Bool.false_eq_true, if_false, ih ha']

theorem splitBarChars_append (as rest : List Char) (ha : '|' ∉ as) :
    splitBarChars (as ++ '|' :: rest) = as :: splitBarChars rest := by
  induction as with
  | nil =>
    simp only [List.nil_append, splitBarChars, beq_self_eq_true, if_true]
  | cons a as ih =>
    have hne : (a == '|') = false := by
      rw [Bool.eq_false_iff]
      intro hb
      rw [beq_iff_eq] at hb
      exact ha (hb ▸ List.mem_cons_self a as)
    have ha' : '|' ∉ as := fun hh => ha (List.mem_cons_of_mem a hh)
    simp only [List.cons_append, splitBarChars, hne, Bool.false_eq_true, if_false]
    show (match splitBarChars (as ++ '|' :: rest) with
          | [] => [[a]]
          | h :: t => (a :: h) :: t) = (a :: as) :: splitBarChars rest
    rw [ih ha']

theorem keyToQuad_quadKey {q : NormalizedTriple} (hq : quadBarFree q = true) :
    keyToQuad (quadKey q) = q := by
  unfold quadBarFree at hq
  rw [Bool.and_eq_true, Bool.and_eq_true] at hq
  obtain ⟨⟨hs, hp⟩, ho⟩ := hq
  unfold keyToQuad splitBar
  rw [quadKey_data]
  rw [splitBarChars_append _ _ ((strBarFree_iff _).mp hs)]
  rw [splitBarChars_append _ _ ((strBarFree_iff _).mp hp)]
  rw [splitBarChars_barFree _ ((strBarFree_iff _).mp ho)]
  simp only [List.map_cons, List.map_nil, string_mk_data]

theorem quadKey_keyToQuad {g : List NormalizedTriple} {k : String}
    (hbf : graphBarFree g = true) (hk : k ∈ g.map quadKey) :
    quadKey (keyToQuad k) = k ∧ keyToQuad k ∈ g := by
  obtain ⟨q, hqg, hqk⟩ := List.mem_map.mp hk
  have hq : quadBarFree q = true := by
    unfold graphBarFree at hbf
    exact (List.all_eq_true.mp hbf) q hqg
  subst hqk
  rw [keyToQuad_quadKey hq]
  exact ⟨rfl, hqg⟩

end Tulna

/-! ## Index and `uniq_graph` membership under `|`-free encodings -/

namespace Tulna

theorem sameTripleSet_iff (l1 l2 : List NormalizedTriple) :
    sameTripleSet l1 l2 = true ↔ (∀ t, t ∈ l1 ↔ t ∈ l2) := by
  unfold sameTripleSet
  rw [Bool.and_eq_true, List.all_eq_true, List.all_eq_true]
  constructor
  · intro ⟨h1, h2⟩ t
    constructor
    · intro ht
      exact of_decide_eq_true (h1 t ht)
    · intro ht
      exact of_decide_eq_true (h2 t ht)
  · intro h
    constructor
    · intro t ht
      exact decide_eq_true ((h t).mp ht)
    · intro t ht
      exact decide_eq_true ((h t).mpr ht)

theorem quadBarFree_of_mem {g : List NormalizedTriple} {q : NormalizedTriple}
    (hbf : graphBarFree g = true) (hq : q ∈ g) : quadBarFree q = true :=
  List.all_eq_true.mp hbf q hq

theorem graphBarFree_filter {g : List NormalizedTriple} (p : NormalizedTriple → Bool)
    (hbf : graphBarFree g = true) : graphBarFree (g.filter p) = true := by
  unfold graphBarFree
  rw [List.all_eq_true]
  intro q hq
  exact quadBarFree_of_mem hbf (List.mem_of_mem_filter hq)

theorem mem_indexKeys {g : List NormalizedTriple} {k : String} :
    k ∈ indexKeys g ↔ ∃ q ∈ g, quadKey q = k := by
  unfold indexKeys
  rw [List.mem_dedup, List.mem_map]

theorem nodup_indexKeys (g : List NormalizedTriple) : (indexKeys g).Nodup :=
  List.nodup_dedup _

theorem mem_uniqGraph_iff {g : List NormalizedTriple}
    (hbf : graphBarFree g = true) {t : NormalizedTriple} :
    t ∈ uniqGraph g ↔ t ∈ g := by
  unfold uniqGraph indexKeys
  constructor
  · intro h
    obtain ⟨k, hk, hkt⟩ := List.mem_map.mp h
    obtain ⟨_, hmem⟩ := quadKey_keyToQuad hbf (List.mem_dedup.mp hk)
    exact hkt ▸ hmem
  · intro h
    have hq : quadBarFree t = true := quadBarFree_of_mem hbf h
    refine List.mem_map.mpr ⟨quadKey t, ?_, keyToQuad_quadKey hq⟩
    exact List.mem_dedup.mpr (List.mem_map_of_mem quadKey h)

theorem nodup_uniqGraph {g : List NormalizedTriple}
    (hbf : graphBarFree g = true) : (uniqGraph g).Nodup := by
  unfold uniqGraph
  refine List.Nodup.map_on ?_ (nodup_indexKeys g)
  intro x hx y hy hxy
  unfold indexKeys at hx hy
  have hx' := quadKey_keyToQuad hbf (List.mem_dedup.mp hx)
  have hy' := quadKey_keyToQuad hbf (List.mem_dedup.mp hy)
  rw [← hx'.1, ← hy'.1, hxy]

/-- If the two ground-triple key indices have the same size and A's keys all
occur in B's, the two ground-triple sets are equal (for `|`-free graphs). -/
theorem ground_sets_eq {A B : List NormalizedTriple}
    (hbfA : graphBarFree A = true) (hbfB : graphBarFree B = true)
    (hlen : (indexKeys (getQuadsWithoutBlankNodes A)).length =
      (indexKeys (getQuadsWithoutBlankNodes B)).length)
    (hsub : (indexKeys (getQuadsWithoutBlankNodes A)).all
      (fun key => elemStr (indexKeys (getQuadsWithoutBlankNodes B)) key) = true) :
    ∀ t, t ∈ getQuadsWithoutBlankNodes A ↔ t ∈ getQuadsWithoutBlankNodes B := by
  have hbfA' : graphBarFree (getQuadsWithoutBlankNodes A) = true :=
    graphBarFree_filter _ hbfA
  have hbfB' : graphBarFree (getQuadsWithoutBlankNodes B) = true :=
    graphBarFree_filter _ hbfB
  have hsub' : indexKeys (getQuadsWithoutBlankNodes A) ⊆
      indexKeys (getQuadsWithoutBlankNodes B) := by
    intro k hk
    exact (elemStr_iff _ _).mp (List.all_eq_true.mp hsub k hk)
  have hperm : (indexKeys (getQuadsWithoutBlankNodes A)).Perm
      (indexKeys (getQuadsWithoutBlankNodes B)) :=
    List.Subperm.perm_of_length_le
      (List.Nodup.subperm (nodup_indexKeys _) hsub') (Nat.le_of_eq hlen.symm)
  intro t
  constructor
  · intro ht
    have hkB := hperm.mem_iff.mp (mem_indexKeys.mpr ⟨t, ht, rfl⟩)
    obtain ⟨q, hqB, hqk⟩ := mem_indexKeys.mp hkB
    have : q = t := quadKey_inj (quadBarFree_of_mem hbfB' hqB)
      (quadBarFree_of_mem hbfA' ht) hqk
    exact this ▸ hqB
  · intro ht
    have hkA := hperm.mem_iff.mpr (mem_indexKeys.mpr ⟨t, ht, rfl⟩)
    obtain ⟨q, hqA, hqk⟩ := mem_indexKeys.mp hkA
    have : q = t := quadKey_inj (quadBarFree_of_mem hbfA' hqA)
      (quadBarFree_of_mem hbfB' ht) hqk
    exact this ▸ hqA

/-- When `get_bijection` answers with a bijection, all its preflight checks
have passed. -/
theorem getBijectionWith_some_checks {A B qa qb : List NormalizedTriple}
    {bij : List (String × String)}
    (h : getBijectionWithQuadLists A B qa qb = some bij) :
    (indexKeys (getQuadsWithoutBlankNodes A)).length =
      (indexKeys (getQuadsWithoutBlankNodes B)).length ∧
    (indexKeys (getQuadsWithoutBlankNodes A)).all
      (fun key => elemStr (indexKeys (getQuadsWithoutBlankNodes B)) key) = true ∧
    (getGraphBlankNodes A).length = (getGraphBlankNodes B).length ∧
    getBijectionInner ((getGraphBlankNodes A).length + 1) qa qb
      (getGraphBlankNodes A) (getGraphBlankNodes B) [] [] = some bij := by
  unfold getBijectionWithQuadLists at h
  by_cases h1 : (indexKeys (getQuadsWithoutBlankNodes A)).length ≠
      (indexKeys (getQuadsWithoutBlankNodes B)).length
  · rw [if_pos h1] at h; cases h
  · rw [if_neg h1] at h
    by_cases h2 : (indexKeys (getQuadsWithoutBlankNodes A)).all
        (fun key => elemStr (indexKeys (getQuadsWithoutBlankNodes B)) key) = true
    · rw [h2] at h
      simp only [Bool.not_true, Bool.false_eq_true, if_false] at h
      by_cases h3 : (getGraphBlankNodes A).length ≠ (getGraphBlankNodes B).length
      · rw [if_pos h3] at h; cases h
      · rw [if_neg h3] at h
        push_neg at h1 h3
        exact ⟨h1, h2, h3, h⟩
    · exfalso
      have h2' : (indexKeys (getQuadsWithoutBlankNodes A)).all
          (fun key => elemStr (indexKeys (getQuadsWithoutBlankNodes B)) key) = false :=
        Bool.eq_false_iff.mpr h2
      rw [h2'] at h
      simp only [Bool.not_false, if_true] at h
      cases h

/-- C5 (amended): for inputs whose normalized encodings are free of the
key-separator `|`, a difference in the ground-triple sets forces the answer
`Ok(false)`. -/
theorem c5_theorem (g1 g2 : List Triple)
    (hbf1 : graphBarFree (normalizeBgp g1) = true)
    (hbf2 : graphBarFree (normalizeBgp g2) = true)
    (hdiff : sameTripleSet (getQuadsWithoutBlankNodes (normalizeBgp g1))
      (getQuadsWithoutBlankNodes (normalizeBgp g2)) = false) :
    areIsomorphic g1 g2 = Except.ok false := by
  unfold areIsomorphic checkBgpIsomorphism
  by_cases hlen : g1.length ≠ g2.length
  · rw [if_pos hlen]
  · rw [if_neg hlen]
    unfold isIsomorphic
    by_cases hlen2 : (normalizeBgp g1).length ≠ (normalizeBgp g2).length
    · rw [if_pos hlen2]
    · rw [if_neg hlen2]
      cases hgb : getBijection (normalizeBgp g1) (normalizeBgp g2) with
      | none => rfl
      | some bij =>
        exfalso
        unfold getBijection at hgb
        obtain ⟨hl, hall, _, _⟩ := getBijectionWith_some_checks hgb
        have hiff := ground_sets_eq hbf1 hbf2 hl hall
        rw [(sameTripleSet_iff _ _).mpr hiff] at hdiff
        cases hdiff

/-- C5 (counterexample): with `|` inside IRI payloads two different ground
triples share the `"s|p|o"` key, so the graphs differ in their ground-triple
sets yet `are_isomorphic` answers `Ok(true)`. -/
theorem c5_counterexample :
    sameTripleSet
      (getQuadsWithoutBlankNodes (normalizeBgp
        [⟨TripleNode.IRI "e", TripleNode.IRI "f", TripleNode.IRI "g>|<h"⟩]))
      (getQuadsWithoutBlankNodes (normalizeBgp
        [⟨TripleNode.IRI "e>|<f", TripleNode.IRI "g", TripleNode.IRI "h"⟩])) = false ∧
    areIsomorphic
      [⟨TripleNode.IRI "e", TripleNode.IRI "f", TripleNode.IRI "g>|<h"⟩]
      [⟨TripleNode.IRI "e>|<f", TripleNode.IRI "g", TripleNode.IRI "h"⟩] =
      Except.ok true := by
  constructor
  · decide
  · decide

/-- Witness for C5 at `{ (a,b,c) }` versus `{ (a,b,d) }`. -/
theorem c5_witness :
    graphBarFree (normalizeBgp
      [⟨TripleNode.IRI "a", TripleNode.IRI "b", TripleNode.IRI "c"⟩]) = true ∧
    graphBarFree (normalizeBgp
      [⟨TripleNode.IRI "a", TripleNode.IRI "b", TripleNode.IRI "d"⟩]) = true ∧
    sameTripleSet
      (getQuadsWithoutBlankNodes (normalizeBgp
        [⟨TripleNode.IRI "a", TripleNode.IRI "b", TripleNode.IRI "c"⟩]))
      (getQuadsWithoutBlankNodes (normalizeBgp
        [⟨TripleNode.IRI "a", TripleNode.IRI "b", TripleNode.IRI "d"⟩])) = false ∧
    areIsomorphic
      [⟨TripleNode.IRI "a", TripleNode.IRI "b", TripleNode.IRI "c"⟩]
      [⟨TripleNode.IRI "a", TripleNode.IRI "b", TripleNode.IRI "d"⟩] =
      Except.ok false :=
  ⟨by decide, by decide, by decide,
    c5_theorem _ _ (by decide) (by decide) (by decide)⟩

end Tulna

/-! ## What a returned bijection satisfies (C1 machinery) -/

namespace Tulna

/-- Any bijection returned by `get_bijection_inner` covers exactly the two
blank-node lists (after sorting) and passed `verify_bijection`. -/
theorem getBijectionInner_some_props (fuel : Nat)
    (qa qb : List NormalizedTriple) (bna bnb : List String) :
    ∀ (ga gb : HMap) (bij : List (String × String)),
    getBijectionInner fuel qa qb bna bnb ga gb = some bij →
    sortStr (bij.map Prod.fst) = sortStr bna ∧
    sortStr (bij.map Prod.snd) = sortStr bnb ∧
    verifyBijection qa qb bij = true := by
  induction fuel with
  | zero => intro ga gb bij h; cases h
  | succ fuel ih =>
    intro ga gb bij h
    simp only [getBijectionInner] at h
    split at h
    · cases h
    · split at h
      · cases h
      · split at h
        · -- speculation branch
          obtain ⟨a, _, hfa⟩ := List.exists_of_findSome?_eq_some h
          split at hfa
          · cases hfa
          · obtain ⟨b, _, hgb⟩ := List.exists_of_findSome?_eq_some hfa
            split at hgb
            · cases hgb
            · split at hgb
              · split at hgb
                · exact ih _ _ bij hgb
                · cases hgb
              · cases hgb
        · -- completion branch
          rename_i hsorted
          split at h
          · rename_i hverify
            injection h with h
            subst h
            push_neg at hsorted
            exact ⟨hsorted.1, hsorted.2, hverify⟩
          · cases h

end Tulna

namespace Tulna

theorem sortStr_idem (l : List String) : sortStr (sortStr l) = sortStr l :=
  sortStr_eq_of_perm (sortStr_perm l)

theorem mem_getGraphBlankNodes_starts {g : List NormalizedTriple} {x : String}
    (hx : x ∈ getGraphBlankNodes g) : strStarts x "_:" = true := by
  unfold getGraphBlankNodes at hx
  rw [mem_sortStr, List.mem_dedup] at hx
  exact (List.mem_filter.mp hx).2

theorem mem_blanks_of_position {g : List NormalizedTriple} {q : NormalizedTriple}
    {x : String} (hq : q ∈ g)
    (hx : x = q.subject ∨ x = q.predicate ∨ x = q.object)
    (hs : strStarts x "_:" = true) : x ∈ getGraphBlankNodes g := by
  unfold getGraphBlankNodes
  rw [mem_sortStr, List.mem_dedup]
  unfold collectBlanks
  rw [List.mem_filter]
  refine ⟨?_, hs⟩
  rw [List.mem_flatten]
  refine ⟨[q.subject, q.predicate, q.object],
    List.mem_map_of_mem (fun q => [q.subject, q.predicate, q.object]) hq, ?_⟩
  rcases hx with hx | hx | hx <;> simp [hx]

theorem blanks_barFree {g : List NormalizedTriple} {x : String}
    (hbf : graphBarFree g = true) (hx : x ∈ getGraphBlankNodes g) :
    strBarFree x = true := by
  unfold getGraphBlankNodes at hx
  rw [mem_sortStr, List.mem_dedup] at hx
  unfold collectBlanks at hx
  obtain ⟨hmem, _⟩ := List.mem_filter.mp hx
  obtain ⟨l, hl, hxl⟩ := List.mem_flatten.mp hmem
  obtain ⟨q, hqg, hql⟩ := List.mem_map.mp hl
  have hqbf := quadBarFree_of_mem hbf hqg
  unfold quadBarFree at hqbf
  rw [Bool.and_eq_true, Bool.and_eq_true] at hqbf
  subst hql
  simp only [List.mem_cons, List.not_mem_nil, or_false] at hxl
  rcases hxl with h | h | h
  · exact h ▸ hqbf.1.1
  · exact h ▸ hqbf.1.2
  · exact h ▸ hqbf.2

theorem hasBlank_false_parts {q : NormalizedTriple} (h : hasBlank q = false) :
    strStarts q.subject "_:" = false ∧ strStarts q.predicate "_:" = false ∧
    strStarts q.object "_:" = false := by
  unfold hasBlank at h
  rw [Bool.or_eq_false_iff, Bool.or_eq_false_iff] at h
  exact ⟨h.1.1, h.1.2, h.2⟩

theorem verifyBijection_true_parts {qa qb : List NormalizedTriple}
    {bij : List (String × String)} (h : verifyBijection qa qb bij = true) :
    qa.length = qb.length ∧
    ∀ q ∈ qa, ∃ q' ∈ qb, quadKey q' = quadKey (applyBijection bij q) := by
  unfold verifyBijection at h
  rw [Bool.and_eq_true] at h
  constructor
  · simpa using h.1
  · intro q hq
    have := List.all_eq_true.mp h.2 q hq
    have hmem := (elemStr_iff _ _).mp this
    unfold indexKeys at hmem
    rw [List.mem_dedup] at hmem
    obtain ⟨q', hq', hk⟩ := List.mem_map.mp hmem
    exact ⟨q', hq', hk⟩

/-- A position that does not carry the `_:` prefix is left alone by the
returned bijection (its keys are blank identifiers of graph A). -/
theorem lookup_bij_none_of_not_blank {bij : List (String × String)}
    {bnA : List String} {x : String}
    (hkeys : ∀ y, y ∈ bij.map Prod.fst ↔ y ∈ bnA)
    (hbn : ∀ y ∈ bnA, strStarts y "_:" = true)
    (hx : strStarts x "_:" = false) : lookupKV bij x = none := by
  rw [lookupKV_eq_none_iff]
  intro hmem
  have := hbn x ((hkeys x).mp hmem)
  rw [hx] at this
  cases this

end Tulna

namespace Tulna

/-- Injectivity of the position rewrite `x ↦ bij.get(x).unwrap_or(x)` on
positions whose blank-prefixed instances all lie in graph A's blank list. -/
theorem pi_inj {bij : List (String × String)} {bnA bnB : List String}
    (hkeys : ∀ y, y ∈ bij.map Prod.fst ↔ y ∈ bnA)
    (hvals : ∀ v, v ∈ bij.map Prod.snd → v ∈ bnB)
    (hbnB : ∀ v ∈ bnB, strStarts v "_:" = true)
    (hnv : (bij.map Prod.snd).Nodup)
    {x y : String}
    (hx : strStarts x "_:" = true → x ∈ bnA)
    (hy : strStarts y "_:" = true → y ∈ bnA)
    (h : (lookupKV bij x).getD x = (lookupKV bij y).getD y) : x = y := by
  cases hlx : lookupKV bij x with
  | none =>
    cases hly : lookupKV bij y with
    | none => rw [hlx, hly] at h; simpa using h
    | some vy =>
      rw [hlx, hly] at h
      simp only [Option.getD_some, Option.getD_none] at h
      exfalso
      have hvy : vy ∈ bij.map Prod.snd :=
        List.mem_map.mpr ⟨(y, vy), mem_of_lookupKV_eq_some hly, rfl⟩
      have hst : strStarts vy "_:" = true := hbnB _ (hvals _ hvy)
      rw [← h] at hst
      have := (hkeys x).mpr (hx hst)
      rw [← lookupKV_isSome_iff] at this
      rw [hlx] at this
      cases this
  | some vx =>
    cases hly : lookupKV bij y with
    | none =>
      rw [hlx, hly] at h
      simp only [Option.getD_some, Option.getD_none] at h
      exfalso
      have hvx : vx ∈ bij.map Prod.snd :=
        List.mem_map.mpr ⟨(x, vx), mem_of_lookupKV_eq_some hlx, rfl⟩
      have hst : strStarts vx "_:" = true := hbnB _ (hvals _ hvx)
      rw [h] at hst
      have := (hkeys y).mpr (hy hst)
      rw [← lookupKV_isSome_iff] at this
      rw [hly] at this
      cases this
    | some vy =>
      rw [hlx, hly] at h
      simp only [Option.getD_some] at h
      have hpx : (x, vx) ∈ bij := mem_of_lookupKV_eq_some hlx
      have hpy : (y, vy) ∈ bij := mem_of_lookupKV_eq_some hly
      have : (x, vx) = (y, vy) :=
        List.inj_on_of_nodup_map hnv hpx hpy (by simpa using h)
      exact congrArg Prod.fst this

/-- A quad with no `_:`-prefixed position is fixed by the rewrite. -/
theorem applyBijection_ground {bij : List (String × String)} {bnA : List String}
    (hkeys : ∀ y, y ∈ bij.map Prod.fst ↔ y ∈ bnA)
    (hbn : ∀ y ∈ bnA, strStarts y "_:" = true)
    {q : NormalizedTriple} (hq : hasBlank q = false) :
    applyBijection bij q = q := by
  obtain ⟨hs, hp, ho⟩ := hasBlank_false_parts hq
  unfold applyBijection
  rw [lookup_bij_none_of_not_blank hkeys hbn hs,
    lookup_bij_none_of_not_blank hkeys hbn hp,
    lookup_bij_none_of_not_blank hkeys hbn ho]
  rfl

/-- The rewrite of a `|`-free quad by a bijection with `|`-free values is
`|`-free. -/
theorem applyBijection_barFree {bij : List (String × String)}
    (hvals : ∀ v, v ∈ bij.map Prod.snd → strBarFree v = true)
    {q : NormalizedTriple} (hq : quadBarFree q = true) :
    quadBarFree (applyBijection bij q) = true := by
  unfold quadBarFree at hq ⊢
  rw [Bool.and_eq_true, Bool.and_eq_true] at hq
  have hone : ∀ x : String, strBarFree x = true →
      strBarFree ((lookupKV bij x).getD x) = true := by
    intro x hx
    cases hlx : lookupKV bij x with
    | none => simpa using hx
    | some v =>
      simp only [Option.getD_some]
      exact hvals v (List.mem_map.mpr ⟨(x, v), mem_of_lookupKV_eq_some hlx, rfl⟩)
  rw [Bool.and_eq_true, Bool.and_eq_true]
  exact ⟨⟨hone _ hq.1.1, hone _ hq.1.2⟩, hone _ hq.2⟩

/-- Core soundness: a bijection that covers both blank lists and passes
`verify_bijection` on the deduplicated blank-bearing quads rewrites the full
normalized graph A exactly onto graph B (as triple sets), provided both
graphs' encodings are `|`-free and the ground sets agree. -/
theorem bijection_rewrites_graph {A B : List NormalizedTriple}
    {bij : List (String × String)}
    (hbfA : graphBarFree A = true) (hbfB : graphBarFree B = true)
    (hkeys : sortStr (bij.map Prod.fst) = sortStr (getGraphBlankNodes A))
    (hvals : sortStr (bij.map Prod.snd) = sortStr (getGraphBlankNodes B))
    (hverify : verifyBijection (uniqGraph (getQuadsWithBlankNodes A))
      (uniqGraph (getQuadsWithBlankNodes B)) bij = true)
    (hground : ∀ t, t ∈ getQuadsWithoutBlankNodes A ↔
      t ∈ getQuadsWithoutBlankNodes B) :
    ∀ t, t ∈ A.map (applyBijection bij) ↔ t ∈ B := by
  have hpk := perm_of_sortStr_eq hkeys
  have hpv := perm_of_sortStr_eq hvals
  have hkeys_iff : ∀ y, y ∈ bij.map Prod.fst ↔ y ∈ getGraphBlankNodes A :=
    fun y => hpk.mem_iff
  have hbnA_st : ∀ y ∈ getGraphBlankNodes A, strStarts y "_:" = true :=
    fun y hy => mem_getGraphBlankNodes_starts hy
  have hbnB_st : ∀ y ∈ getGraphBlankNodes B, strStarts y "_:" = true :=
    fun y hy => mem_getGraphBlankNodes_starts hy
  have hvals_mem : ∀ v, v ∈ bij.map Prod.snd → v ∈ getGraphBlankNodes B :=
    fun v hv => hpv.mem_iff.mp hv
  have hnv : (bij.map Prod.snd).Nodup :=
    (nodup_getGraphBlankNodes B).perm hpv.symm
  have hbfAf : graphBarFree (getQuadsWithBlankNodes A) = true :=
    graphBarFree_filter _ hbfA
  have hbfBf : graphBarFree (getQuadsWithBlankNodes B) = true :=
    graphBarFree_filter _ hbfB
  have hqa_iff : ∀ t, t ∈ uniqGraph (getQuadsWithBlankNodes A) ↔
      t ∈ getQuadsWithBlankNodes A := fun t => mem_uniqGraph_iff hbfAf
  have hqb_iff : ∀ t, t ∈ uniqGraph (getQuadsWithBlankNodes B) ↔
      t ∈ getQuadsWithBlankNodes B := fun t => mem_uniqGraph_iff hbfBf
  have hvals_bf : ∀ v, v ∈ bij.map Prod.snd → strBarFree v = true :=
    fun v hv => blanks_barFree hbfB (hvals_mem v hv)
  obtain ⟨hlenq, hmapmem⟩ := verifyBijection_true_parts hverify
  -- every rewritten deduplicated blank quad of A lies in B's deduplicated set
  have happly_mem : ∀ q ∈ uniqGraph (getQuadsWithBlankNodes A),
      applyBijection bij q ∈ uniqGraph (getQuadsWithBlankNodes B) := by
    intro q hq
    obtain ⟨q', hq', hk⟩ := hmapmem q hq
    have hqbf : quadBarFree q = true :=
      quadBarFree_of_mem hbfA
        (List.mem_of_mem_filter ((hqa_iff q).mp hq))
    have happbf := applyBijection_barFree hvals_bf hqbf
    have hq'bf : quadBarFree q' = true :=
      quadBarFree_of_mem hbfB
        (List.mem_of_mem_filter ((hqb_iff q').mp hq'))
    have : q' = applyBijection bij q := quadKey_inj hq'bf happbf hk
    exact this ▸ hq'
  -- the rewrite is injective on the deduplicated blank quads of A
  have hpos_blank : ∀ q ∈ uniqGraph (getQuadsWithBlankNodes A), ∀ x : String,
      (x = q.subject ∨ x = q.predicate ∨ x = q.object) →
      strStarts x "_:" = true → x ∈ getGraphBlankNodes A := by
    intro q hq x hx hs
    exact mem_blanks_of_position
      (List.mem_of_mem_filter ((hqa_iff q).mp hq)) hx hs
  have hinj_on : ∀ q1 ∈ uniqGraph (getQuadsWithBlankNodes A),
      ∀ q2 ∈ uniqGraph (getQuadsWithBlankNodes A),
      applyBijection bij q1 = applyBijection bij q2 → q1 = q2 := by
    intro q1 hq1 q2 hq2 happ
    unfold applyBijection at happ
    cases q1 with
    | mk s1 p1 o1 =>
      cases q2 with
      | mk s2 p2 o2 =>
        simp only [NormalizedTriple.mk.injEq] at happ
        obtain ⟨hes, hep, heo⟩ := happ
        have e1 := pi_inj hkeys_iff hvals_mem hbnB_st hnv
          (hpos_blank _ hq1 s1 (Or.inl rfl)) (hpos_blank _ hq2 s2 (Or.inl rfl)) hes
        have e2 := pi_inj hkeys_iff hvals_mem hbnB_st hnv
          (hpos_blank _ hq1 p1 (Or.inr (Or.inl rfl)))
          (hpos_blank _ hq2 p2 (Or.inr (Or.inl rfl))) hep
        have e3 := pi_inj hkeys_iff hvals_mem hbnB_st hnv
          (hpos_blank _ hq1 o1 (Or.inr (Or.inr rfl)))
          (hpos_blank _ hq2 o2 (Or.inr (Or.inr rfl))) heo
        rw [e1, e2, e3]
  -- counting: the rewritten quads are a permutation of B's deduplicated set
  have hnodup_mapped :
      ((uniqGraph (getQuadsWithBlankNodes A)).map (applyBijection bij)).Nodup :=
    List.Nodup.map_on hinj_on (nodup_uniqGraph hbfAf)
  have hsub : (uniqGraph (getQuadsWithBlankNodes A)).map (applyBijection bij) ⊆
      uniqGraph (getQuadsWithBlankNodes B) := by
    intro t ht
    obtain ⟨q, hq, hqt⟩ := List.mem_map.mp ht
    exact hqt ▸ happly_mem q hq
  have hlen_mapped :
      (uniqGraph (getQuadsWithBlankNodes B)).length ≤
      ((uniqGraph (getQuadsWithBlankNodes A)).map (applyBijection bij)).length := by
    rw [List.length_map]
    omega
  have hperm_mapped :
      ((uniqGraph (getQuadsWithBlankNodes A)).map (applyBijection bij)).Perm
      (uniqGraph (getQuadsWithBlankNodes B)) :=
    List.Subperm.perm_of_length_le (List.Nodup.subperm hnodup_mapped hsub)
      hlen_mapped
  -- assemble the set equality on the full graphs
  intro t
  constructor
  · intro ht
    obtain ⟨q, hqA, hqt⟩ := List.mem_map.mp ht
    by_cases hhb : hasBlank q = true
    · have hq_qa : q ∈ uniqGraph (getQuadsWithBlankNodes A) :=
        (hqa_iff q).mpr (List.mem_filter.mpr ⟨hqA, hhb⟩)
      have : t ∈ uniqGraph (getQuadsWithBlankNodes B) :=
        hperm_mapped.mem_iff.mp
          (hqt ▸ List.mem_map_of_mem (applyBijection bij) hq_qa)
      exact List.mem_of_mem_filter ((hqb_iff t).mp this)
    · have hhb' : hasBlank q = false := Bool.eq_false_iff.mpr hhb
      have hfix : applyBijection bij q = q :=
        applyBijection_ground hkeys_iff hbnA_st hhb'
      have hqg : q ∈ getQuadsWithoutBlankNodes A :=
        List.mem_filter.mpr ⟨hqA, by rw [hhb']; rfl⟩
      have := (hground q).mp hqg
      rw [← hqt, hfix]
      exact List.mem_of_mem_filter this
  · intro ht
    by_cases hhb : hasBlank t = true
    · have ht_qb : t ∈ uniqGraph (getQuadsWithBlankNodes B) :=
        (hqb_iff t).mpr (List.mem_filter.mpr ⟨ht, hhb⟩)
      have := hperm_mapped.mem_iff.mpr ht_qb
      obtain ⟨q, hq, hqt⟩ := List.mem_map.mp this
      exact List.mem_map.mpr
        ⟨q, List.mem_of_mem_filter ((hqa_iff q).mp hq), hqt⟩
    · have hhb' : hasBlank t = false := Bool.eq_false_iff.mpr hhb
      have htg : t ∈ getQuadsWithoutBlankNodes B :=
        List.mem_filter.mpr ⟨ht, by rw [hhb']; rfl⟩
      have htA : t ∈ A := List.mem_of_mem_filter ((hground t).mpr htg)
      exact List.mem_map.mpr
        ⟨t, htA, applyBijection_ground hkeys_iff hbnA_st hhb'⟩

end Tulna

namespace Tulna

theorem areIsomorphic_true_some {g1 g2 : List Triple}
    (h : areIsomorphic g1 g2 = Except.ok true) :
    ∃ bij, getBijection (normalizeBgp g1) (normalizeBgp g2) = some bij := by
  unfold areIsomorphic checkBgpIsomorphism at h
  by_cases hlen : g1.length ≠ g2.length
  · rw [if_pos hlen] at h
    injection h with h
    cases h
  · rw [if_neg hlen] at h
    injection h with h
    unfold isIsomorphic at h
    by_cases hlen2 : (normalizeBgp g1).length ≠ (normalizeBgp g2).length
    · rw [if_pos hlen2] at h; cases h
    · rw [if_neg hlen2] at h
      exact Option.isSome_iff_exists.mp h

/-- C1 (amended): for inputs whose normalized encodings are free of the
key-separator `|`, whenever `are_isomorphic` returns `Ok(true)` the map it
found is a total, one-to-one correspondence between the unlabeled ids of the
two normalized graphs, and rewriting every triple of the full normalized
graph A by it (labeled positions unchanged) yields exactly graph B's set of
triples. -/
theorem c1_theorem (g1 g2 : List Triple)
    (hbf1 : graphBarFree (normalizeBgp g1) = true)
    (hbf2 : graphBarFree (normalizeBgp g2) = true)
    (hiso : areIsomorphic g1 g2 = Except.ok true) :
    ∃ bij : List (String × String),
      sortStr (bij.map Prod.fst) = getGraphBlankNodes (normalizeBgp g1) ∧
      sortStr (bij.map Prod.snd) = getGraphBlankNodes (normalizeBgp g2) ∧
      (bij.map Prod.fst).Nodup ∧ (bij.map Prod.snd).Nodup ∧
      (∀ t, t ∈ (normalizeBgp g1).map (applyBijection bij) ↔
        t ∈ normalizeBgp g2) := by
  obtain ⟨bij, hgb⟩ := areIsomorphic_true_some hiso
  unfold getBijection at hgb
  obtain ⟨hl, hall, _, hinner⟩ := getBijectionWith_some_checks hgb
  obtain ⟨hk, hv, hverify⟩ :=
    getBijectionInner_some_props _ _ _ _ _ _ _ bij hinner
  have hground := ground_sets_eq hbf1 hbf2 hl hall
  have hsA : sortStr (getGraphBlankNodes (normalizeBgp g1)) =
      getGraphBlankNodes (normalizeBgp g1) := by
    unfold getGraphBlankNodes
    exact sortStr_idem _
  have hsB : sortStr (getGraphBlankNodes (normalizeBgp g2)) =
      getGraphBlankNodes (normalizeBgp g2) := by
    unfold getGraphBlankNodes
    exact sortStr_idem _
  refine ⟨bij, hk.trans hsA, hv.trans hsB, ?_, ?_, ?_⟩
  · exact (nodup_getGraphBlankNodes _).perm (perm_of_sortStr_eq hk).symm
  · exact (nodup_getGraphBlankNodes _).perm (perm_of_sortStr_eq hv).symm
  · exact bijection_rewrites_graph hbf1 hbf2 hk hv hverify hground

/-- C1 (counterexample): with `|` inside IRI payloads, `are_isomorphic`
answers `Ok(true)` on two graphs that have no unlabeled ids at all and
different triple sets, so no bijection between their (empty) blank-id sets
can rewrite one onto the other. -/
theorem c1_counterexample :
    areIsomorphic
      [⟨TripleNode.IRI "a", TripleNode.IRI "b", TripleNode.IRI "c>|<d"⟩]
      [⟨TripleNode.IRI "a>|<b", TripleNode.IRI "c", TripleNode.IRI "d"⟩] =
      Except.ok true ∧
    ¬ ∃ bij : List (String × String),
      sortStr (bij.map Prod.fst) = getGraphBlankNodes (normalizeBgp
        [⟨TripleNode.IRI "a", TripleNode.IRI "b", TripleNode.IRI "c>|<d"⟩]) ∧
      sortStr (bij.map Prod.snd) = getGraphBlankNodes (normalizeBgp
        [⟨TripleNode.IRI "a>|<b", TripleNode.IRI "c", TripleNode.IRI "d"⟩]) ∧
      (∀ t, t ∈ (normalizeBgp
        [⟨TripleNode.IRI "a", TripleNode.IRI "b", TripleNode.IRI "c>|<d"⟩]).map
          (applyBijection bij) ↔
        t ∈ normalizeBgp
          [⟨TripleNode.IRI "a>|<b", TripleNode.IRI "c", TripleNode.IRI "d"⟩]) := by
  constructor
  · decide
  · rintro ⟨bij, hk, _, hset⟩
    have hb : getGraphBlankNodes (normalizeBgp
        [⟨TripleNode.IRI "a", TripleNode.IRI "b", TripleNode.IRI "c>|<d"⟩]) =
        ([] : List String) := by decide
    rw [hb] at hk
    have hnil : bij.map Prod.fst = [] :=
      List.Perm.eq_nil (perm_of_sortStr_eq hk)
    have hbij : bij = [] := List.map_eq_nil_iff.mp hnil
    subst hbij
    have := (hset ⟨"<a>", "<b>", "<c>|<d>"⟩).mp (by decide)
    exact absurd this (by decide)

/-- Witness for C1 at the ground graph `{ (a,b,c) }` against itself. -/
theorem c1_witness :
    graphBarFree (normalizeBgp
      [⟨TripleNode.IRI "a", TripleNode.IRI "b", TripleNode.IRI "c"⟩]) = true ∧
    areIsomorphic
      [⟨TripleNode.IRI "a", TripleNode.IRI "b", TripleNode.IRI "c"⟩]
      [⟨TripleNode.IRI "a", TripleNode.IRI "b", TripleNode.IRI "c"⟩] =
      Except.ok true ∧
    ∃ bij : List (String × String),
      sortStr (bij.map Prod.fst) = getGraphBlankNodes (normalizeBgp
        [⟨TripleNode.IRI "a", TripleNode.IRI "b", TripleNode.IRI "c"⟩]) ∧
      sortStr (bij.map Prod.snd) = getGraphBlankNodes (normalizeBgp
        [⟨TripleNode.IRI "a", TripleNode.IRI "b", TripleNode.IRI "c"⟩]) ∧
      (bij.map Prod.fst).Nodup ∧ (bij.map Prod.snd).Nodup ∧
      (∀ t, t ∈ (normalizeBgp
        [⟨TripleNode.IRI "a", TripleNode.IRI "b", TripleNode.IRI "c"⟩]).map
          (applyBijection bij) ↔
        t ∈ normalizeBgp
          [⟨TripleNode.IRI "a", TripleNode.IRI "b", TripleNode.IRI "c"⟩]) :=
  ⟨by decide, by decide,
    c1_theorem _ _ (by decide) (by decide) (by decide)⟩

end Tulna

/-! ## Determinism (C3): the decision does not depend on the order in which
`uniq_graph` emits the deduplicated blank-bearing triples -/

namespace Tulna

theorem all_congr_perm {α : Type} (p : α → Bool) {l l' : List α}
    (h : List.Perm l l') : l.all p = l'.all p := by
  cases hl' : l'.all p with
  | true =>
    rw [List.all_eq_true] at hl' ⊢
    exact fun x hx => hl' x (h.mem_iff.mp hx)
  | false =>
    rw [Bool.eq_false_iff] at hl' ⊢
    intro hc
    rw [List.all_eq_true] at hc
    apply hl'
    rw [List.all_eq_true]
    exact fun x hx => hc x (h.mem_iff.mpr hx)

theorem elemStr_congr_perm {l l' : List String} (h : List.Perm l l')
    (s : String) : elemStr l s = elemStr l' s := by
  cases hl' : elemStr l' s with
  | true => exact (elemStr_iff l s).mpr (h.mem_iff.mpr ((elemStr_iff l' s).mp hl'))
  | false =>
    rw [Bool.eq_false_iff] at hl' ⊢
    intro hc
    exact hl' ((elemStr_iff l' s).mpr (h.mem_iff.mp ((elemStr_iff l s).mp hc)))

theorem hashTerm_perm {qa qa' : List NormalizedTriple}
    (h : List.Perm qa qa') (t : String) (hs : HMap) :
    hashTerm t qa hs = hashTerm t qa' hs := by
  simp only [hashTerm]
  have h1 : List.Perm (qa.filter (occursIn t)) (qa'.filter (occursIn t)) :=
    h.filter (occursIn t)
  have h2 : sortStr ((qa.filter (occursIn t)).map
        (fun q => quadToSignature q hs t)) =
      sortStr ((qa'.filter (occursIn t)).map (fun q => quadToSignature q hs t)) :=
    sortStr_eq_of_perm (h1.map _)
  have h3 : (qa.filter (occursIn t)).all (fun q =>
        [q.subject, q.predicate, q.object].all
          (fun x => isTermGrounded x hs || x == t)) =
      (qa'.filter (occursIn t)).all (fun q =>
        [q.subject, q.predicate, q.object].all
          (fun x => isTermGrounded x hs || x == t)) :=
    all_congr_perm _ h1
  rw [h2, h3]

theorem hashTermsStep_perm {qa qa' : List NormalizedTriple}
    (h : List.Perm qa qa') (st : HMap × HMap) (t : String) :
    hashTermsStep qa st t = hashTermsStep qa' st t := by
  simp only [hashTermsStep]
  rw [hashTerm_perm h]

theorem hashTermsPass_perm {qa qa' : List NormalizedTriple}
    (h : List.Perm qa qa') (terms : List String) (st : HMap × HMap) :
    hashTermsPass qa terms st = hashTermsPass qa' terms st := by
  induction terms generalizing st with
  | nil => rfl
  | cons t ts ih =>
    show hashTermsPass qa ts (hashTermsStep qa st t) =
      hashTermsPass qa' ts (hashTermsStep qa' st t)
    rw [hashTermsStep_perm h, ih]

theorem hashTermsLoop_perm {qa qa' : List NormalizedTriple}
    (h : List.Perm qa qa') (fuel : Nat) (terms : List String) (st : HMap × HMap) :
    hashTermsLoop fuel qa terms st = hashTermsLoop fuel qa' terms st := by
  induction fuel generalizing st with
  | zero => rfl
  | succ fuel ih =>
    simp only [hashTermsLoop]
    rw [hashTermsPass_perm h, ih]

theorem hashTerms_perm {qa qa' : List NormalizedTriple}
    (h : List.Perm qa qa') (terms : List String) (G : HMap) :
    hashTerms qa terms G = hashTerms qa' terms G :=
  hashTermsLoop_perm h _ terms (G, [])

theorem findSome?_congr {α β : Type} {l : List α} {f g : α → Option β}
    (h : ∀ x ∈ l, f x = g x) : l.findSome? f = l.findSome? g := by
  induction l with
  | nil => rfl
  | cons a l ih =>
    rw [List.findSome?_cons, List.findSome?_cons,
      h a (List.mem_cons_self a l), ih (fun x hx => h x (List.mem_cons_of_mem a hx))]

theorem verifyBijection_perm {qa qa' qb qb' : List NormalizedTriple}
    (hqa : List.Perm qa qa') (hqb : List.Perm qb qb')
    (bij : List (String × String)) :
    verifyBijection qa qb bij = verifyBijection qa' qb' bij := by
  unfold verifyBijection
  have hidx : List.Perm (indexKeys qb) (indexKeys qb') :=
    List.Perm.dedup (hqb.map quadKey)
  have hP : (fun q => elemStr (indexKeys qb) (quadKey (applyBijection bij q))) =
      (fun q => elemStr (indexKeys qb') (quadKey (applyBijection bij q))) :=
    funext (fun q => elemStr_congr_perm hidx _)
  rw [hqa.length_eq, hqb.length_eq, hP, all_congr_perm _ hqa]

theorem getBijectionInner_perm {qa qa' qb qb' : List NormalizedTriple}
    (hqa : List.Perm qa qa') (hqb : List.Perm qb qb') (fuel : Nat) :
    ∀ (bna bnb : List String) (ga gb : HMap),
    getBijectionInner fuel qa qb bna bnb ga gb =
    getBijectionInner fuel qa' qb' bna bnb ga gb := by
  induction fuel with
  | zero => intro bna bnb ga gb; rfl
  | succ fuel ih =>
    intro bna bnb ga gb
    simp only [getBijectionInner]
    rw [hashTerms_perm hqa bna ga, hashTerms_perm hqb bnb gb,
      verifyBijection_perm hqa hqb]
    have hrec : ∀ nodeA _hA : String,
        (fun nodeB =>
          if containsKV (hashTerms qb' bnb gb).1 nodeB then none
          else
            match lookupKV (hashTerms qa' bna ga).2 nodeA,
              lookupKV (hashTerms qb' bnb gb).2 nodeB with
            | some ha, some hb =>
              if ha = hb then
                getBijectionInner fuel qa qb bna bnb
                  (insertKV ga nodeA (hashString nodeA))
                  (insertKV gb nodeB (hashString nodeA))
              else none
            | _, _ => none) =
        (fun nodeB =>
          if containsKV (hashTerms qb' bnb gb).1 nodeB then none
          else
            match lookupKV (hashTerms qa' bna ga).2 nodeA,
              lookupKV (hashTerms qb' bnb gb).2 nodeB with
            | some ha, some hb =>
              if ha = hb then
                getBijectionInner fuel qa' qb' bna bnb
                  (insertKV ga nodeA (hashString nodeA))
                  (insertKV gb nodeB (hashString nodeA))
              else none
            | _, _ => none) := by
      intro nodeA _hA
      funext nodeB
      by_cases hcb : containsKV (hashTerms qb' bnb gb).1 nodeB = true
      · rw [if_pos hcb, if_pos hcb]
      · rw [if_neg hcb, if_neg hcb]
        cases lookupKV (hashTerms qa' bna ga).2 nodeA with
        | none => rfl
        | some hva =>
          cases lookupKV (hashTerms qb' bnb gb).2 nodeB with
          | none => rfl
          | some hvb =>
            by_cases hab : hva = hvb
            · simp only [if_pos hab]
              exact ih bna bnb _ _
            · simp only [if_neg hab]
    have hfun : (fun nodeA =>
        if containsKV (hashTerms qa' bna ga).1 nodeA then none
        else bnb.findSome? (fun nodeB =>
          if containsKV (hashTerms qb' bnb gb).1 nodeB then none
          else
            match lookupKV (hashTerms qa' bna ga).2 nodeA,
              lookupKV (hashTerms qb' bnb gb).2 nodeB with
            | some ha, some hb =>
              if ha = hb then
                getBijectionInner fuel qa qb bna bnb
                  (insertKV ga nodeA (hashString nodeA))
                  (insertKV gb nodeB (hashString nodeA))
              else none
            | _, _ => none)) =
        (fun nodeA =>
        if containsKV (hashTerms qa' bna ga).1 nodeA then none
        else bnb.findSome? (fun nodeB =>
          if containsKV (hashTerms qb' bnb gb).1 nodeB then none
          else
            match lookupKV (hashTerms qa' bna ga).2 nodeA,
              lookupKV (hashTerms qb' bnb gb).2 nodeB with
            | some ha, some hb =>
              if ha = hb then
                getBijectionInner fuel qa' qb' bna bnb
                  (insertKV ga nodeA (hashString nodeA))
                  (insertKV gb nodeB (hashString nodeA))
              else none
            | _, _ => none)) := by
      funext nodeA
      by_cases hca : containsKV (hashTerms qa' bna ga).1 nodeA = true
      · rw [if_pos hca, if_pos hca]
      · rw [if_neg hca, if_neg hca]
        rw [hrec nodeA nodeA]
    rw [hfun]

theorem getBijectionWithQuadLists_perm {A B qa qa' qb qb' : List NormalizedTriple}
    (hqa : List.Perm qa qa') (hqb : List.Perm qb qb') :
    getBijectionWithQuadLists A B qa qb = getBijectionWithQuadLists A B qa' qb' := by
  simp only [getBijectionWithQuadLists]
  rw [getBijectionInner_perm hqa hqb]

/-- C3 (confirmed): the decision is a pure function of the two input graphs.
The only `HashMap`/`HashSet` iteration whose order reaches the algorithm's
data is `uniq_graph` iterating `index.keys()` (all other iterations are
universally quantified checks, promotions of pairwise-distinct keys, or are
sorted before use); running the pipeline with the two deduplicated
blank-quad lists in any order yields exactly `are_isomorphic`'s answer. -/
theorem c3_theorem (bgp1 bgp2 : List Triple) (qa qb : List NormalizedTriple)
    (hqa : List.Perm qa (uniqGraph (getQuadsWithBlankNodes (normalizeBgp bgp1))))
    (hqb : List.Perm qb (uniqGraph (getQuadsWithBlankNodes (normalizeBgp bgp2)))) :
    checkBgpIsomorphismWithQuadLists bgp1 bgp2 qa qb = areIsomorphic bgp1 bgp2 := by
  simp only [areIsomorphic, checkBgpIsomorphism, checkBgpIsomorphismWithQuadLists,
    isIsomorphic, getBijection]
  rw [getBijectionWithQuadLists_perm hqa hqb]

/-- Witness for C3: a two-quad graph with its deduplicated blank-quad lists
passed in reversed order. -/
theorem c3_witness :
    List.Perm [⟨"_:b1", "<q>", "_:b1"⟩, ⟨"_:b0", "<p>", "_:b0"⟩]
      (uniqGraph (getQuadsWithBlankNodes (normalizeBgp
        [⟨TripleNode.Variable "x", TripleNode.IRI "p", TripleNode.Variable "x"⟩,
         ⟨TripleNode.Variable "y", TripleNode.IRI "q", TripleNode.Variable "y"⟩]))) ∧
    checkBgpIsomorphismWithQuadLists
      [⟨TripleNode.Variable "x", TripleNode.IRI "p", TripleNode.Variable "x"⟩,
       ⟨TripleNode.Variable "y", TripleNode.IRI "q", TripleNode.Variable "y"⟩]
      [⟨TripleNode.Variable "x", TripleNode.IRI "p", TripleNode.Variable "x"⟩,
       ⟨TripleNode.Variable "y", TripleNode.IRI "q", TripleNode.Variable "y"⟩]
      [⟨"_:b1", "<q>", "_:b1"⟩, ⟨"_:b0", "<p>", "_:b0"⟩]
      [⟨"_:b1", "<q>", "_:b1"⟩, ⟨"_:b0", "<p>", "_:b0"⟩] =
    areIsomorphic
      [⟨TripleNode.Variable "x", TripleNode.IRI "p", TripleNode.Variable "x"⟩,
       ⟨TripleNode.Variable "y", TripleNode.IRI "q", TripleNode.Variable "y"⟩]
      [⟨TripleNode.Variable "x", TripleNode.IRI "p", TripleNode.Variable "x"⟩,
       ⟨TripleNode.Variable "y", TripleNode.IRI "q", TripleNode.Variable "y"⟩] :=
  ⟨by decide, c3_theorem _ _ _ _ (by decide) (by decide)⟩

end Tulna
